/-
  Verification of `sort_empirical_formula` (src/formula.rs) from the
  chimitheque_utils repository.

  The Rust function scans a chemical formula string left to right, tracking
  bracket nesting depth, recognizing element symbols against a fixed periodic
  table, recording one `AtomBlock` per atom occurrence, resolving digit
  sequences as either an atom-count override or a retroactive group
  multiplier, then aggregates the occurrences into per-symbol totals and
  renders them in Hill order (C, H, then the rest lexicographically).

  This file shallowly embeds that code: the `while` loop over a char vector
  becomes structural recursion over a `List Char`; the `Vec<AtomBlock>` is
  kept most-recent-first (so Rust's `push`/`last_mut` become cons/head) and
  reversed before aggregation; Rust's `Result` is mirrored by `RustResult`.
-/
import Mathlib

namespace Chimitheque

/-- Mirror of Rust's `Result<A, E>`. -/
inductive RustResult (α : Type) (ε : Type) where
  | Ok (val : α)
  | Err (e : ε)
deriving DecidableEq, Repr

/-- Mirror of `SortEmpiricalFormulaError` (src/formula.rs lines 9-16).
`CanNotParseNumber` carries a `ParseIntError` in the source; the payload is
dropped here because the scan only ever parses strings of digit characters,
so the variant is unreachable. -/
inductive SortEmpiricalFormulaError where
  | UnbalancedParenthesis
  | UnknowAtom (s : String)
  | CanNotParseNumber
  | NumberAfterUnknowAtom
  | UnexpectedNoneAtomCount (s : String)
deriving DecidableEq, Repr

open SortEmpiricalFormulaError

/-- Mirror of the local `struct AtomBlock` (src/formula.rs lines 171-176).
`parenthesis_depth` is `isize` in the source, embedded as `Int`;
`count` is `usize`, embedded as `Nat` (counts only grow by small products,
far below any 64-bit wraparound, so plain `Nat` is faithful). -/
structure AtomBlock where
  atom_name : String
  parenthesis_depth : Int
  count : Nat
deriving DecidableEq, Repr

/-- Association-list lookup, standing in for `HashMap` key lookup. -/
def lookupA {α : Type} : List (String × α) → String → Option α
  | [], _ => none
  | (k, v) :: rest, key => if k = key then some v else lookupA rest key

/-- `HashMap::contains_key`. -/
def containsKeyA {α : Type} (m : List (String × α)) (key : String) : Bool :=
  (lookupA m key).isSome

/-- `HashMap::remove` (keys are unique in the maps the code builds, so
removing the first matching entry is faithful). -/
def eraseA {α : Type} : List (String × α) → String → List (String × α)
  | [], _ => []
  | (k, v) :: rest, key => if k = key then rest else (k, v) :: eraseA rest key

/-- The `periodic_table` map (src/formula.rs lines 51-165), verbatim. -/
def periodic_table : List (String × String) :=
  [("Ac", "actinium"), ("Ag", "silver"), ("Al", "aluminium"), ("Am", "americium"),
   ("Ar", "argon"), ("As", "arsenic"), ("At", "astatine"), ("Au", "gold"),
   ("B", "boron"), ("Ba", "barium"), ("Be", "berylium"), ("Bh", "bohrium"),
   ("Bi", "bismuth"), ("Bk", "berkelium"), ("Br", "bromine"), ("C", "carbon"),
   ("Ca", "calcium"), ("Cd", "cadmium"), ("Ce", "cerium"), ("Cf", "californium"),
   ("Cl", "chlorine"), ("Cm", "curium"), ("Cn", "copemicium"), ("Co", "cobalt"),
   ("Cr", "chromium"), ("Cs", "caesium"), ("Cu", "copper"), ("D", "deuterium"),
   ("Db", "dubnium"), ("Ds", "darmstadtium"), ("Dy", "dysprosium"),
   ("Er", "erbium"), ("Es", "einsteinium"), ("Eu", "europium"), ("F", "fluorine"),
   ("Fe", "iron"), ("Fm", "fermium"), ("Fr", "francium"), ("Ga", "gallium"),
   ("Gd", "gadolinium"), ("Ge", "germanium"), ("H", "hydrogen"), ("He", "helium"),
   ("Hf", "hafnium"), ("Hg", "mercury"), ("Ho", "holmium"), ("Hs", "hassium"),
   ("I", "iodine"), ("In", "indium"), ("Ir", "iridium"), ("K", "potassium"),
   ("Kr", "krypton"), ("La", "lanthanum"), ("Li", "lithium"), ("Lr", "lawrencium"),
   ("Lu", "lutetium"), ("Md", "mendelevium"), ("Mg", "magnesium"),
   ("Mn", "manganese"), ("Mo", "molybdenum"), ("Mt", "meitnerium"),
   ("N", "nitrogen"), ("Na", "sodium"), ("Nb", "niobium"), ("Nd", "neodymium"),
   ("Ne", "neon"), ("Ni", "nickel"), ("No", "nobelium"), ("Np", "neptunium"),
   ("O", "oxygen"), ("Os", "osmium"), ("P", "phosphorus"), ("Pa", "protactinium"),
   ("Pb", "lead"), ("Pd", "palladium"), ("Pm", "promethium"), ("Po", "polonium"),
   ("Pr", "praseodymium"), ("Pt", "platinium"), ("Pu", "plutonium"),
   ("Ra", "radium"), ("Rb", "rubidium"), ("Re", "rhenium"),
   ("Rf", "rutherfordium"), ("Rg", "roentgenium"), ("Rh", "rhodium"),
   ("Rn", "radon"), ("Ru", "ruthenium"), ("S", "sulfure"), ("Sb", "antimony"),
   ("Sc", "scandium"), ("Se", "sefeniuo"), ("Sg", "seaborgium"), ("Si", "silicon"),
   ("Sm", "samarium"), ("Sn", "tin"), ("Sr", "strontium"), ("Ta", "tantalum"),
   ("Tb", "terbium"), ("Tc", "technetium"), ("Te", "tellurium"), ("Th", "thorium"),
   ("Ti", "titanium"), ("Tl", "thallium"), ("Tm", "thulium"), ("U", "uranium"),
   ("V", "vanadium"), ("W", "tungsten"), ("Xe", "xenon"), ("Y", "yltrium"),
   ("Yb", "ytterbium"), ("Zn", "zinc"), ("Zr", "zirconium")]

/-- `periodic_table.contains_key(...)`. -/
def ptContains (s : String) : Bool := containsKeyA periodic_table s

/-- Rust's `'A'..='Z'` range pattern (ASCII uppercase). -/
def isAsciiUpper (c : Char) : Bool := 'A' ≤ c && c ≤ 'Z'

/-- Rust's `'a'..='z'` range pattern (ASCII lowercase). -/
def isAsciiLower (c : Char) : Bool := 'a' ≤ c && c ≤ 'z'

/-- Rust's `'0'..='9'` range pattern (ASCII digit). -/
def isAsciiDigit (c : Char) : Bool := '0' ≤ c && c ≤ '9'

/-- Numeric value of an ASCII digit character
(the effect of `parse::<usize>()` on a digit). -/
def digitVal (c : Char) : Nat := c.toNat - 48

/-- The source's `Some('a'..='a') | Some('A'..='Z')` pattern on the previous
char: matches exactly the lone letter `'a'` or an ASCII uppercase letter. -/
def prevTakesCount : Option Char → Bool
  | some p => p == 'a' || isAsciiUpper p
  | none => false

/-- One iteration of the scanning `while` loop (src/formula.rs lines 191-336)
on the character under the cursor. Returns the number of characters consumed
(`cursor_index` advance, 1 or 2), the new `parenthesis_depth`, and the new
`atom_blocks` (held most-recent-first). -/
def scanStep (current_char : Char) (maybe_next_char : Option Char)
    (parenthesis_depth : Int) (previous_char : Option Char)
    (atom_blocks : List AtomBlock) :
    RustResult (Nat × Int × List AtomBlock) SortEmpiricalFormulaError :=
  if current_char = '(' ∨ current_char = '[' then
    -- Opening block, increase depth.
    .Ok (1, parenthesis_depth + 1, atom_blocks)
  else if current_char = ')' ∨ current_char = ']' then
    -- Closing block, decrease depth; error if it would go negative.
    if parenthesis_depth - 1 < 0 then .Err UnbalancedParenthesis
    else .Ok (1, parenthesis_depth - 1, atom_blocks)
  else if isAsciiUpper current_char then
    -- Beginning of an atom: two-char token if the next char is lowercase,
    -- otherwise the single uppercase char.
    let search_atom : String :=
      match maybe_next_char with
      | some next_char =>
          if isAsciiLower next_char then ⟨[current_char, next_char]⟩
          else ⟨[current_char]⟩
      | none => ⟨[current_char]⟩
    if ptContains search_atom then
      .Ok (search_atom.length, parenthesis_depth,
           ⟨search_atom, parenthesis_depth, 1⟩ :: atom_blocks)
    else
      .Err (UnknowAtom search_atom)
  else if isAsciiDigit current_char then
    -- A number: up to two consecutive digits.
    let consumed : Nat :=
      match maybe_next_char with
      | some next_char => if isAsciiDigit next_char then 2 else 1
      | none => 1
    let count : Nat :=
      match maybe_next_char with
      | some next_char =>
          if isAsciiDigit next_char then 10 * digitVal current_char + digitVal next_char
          else digitVal current_char
      | none => digitVal current_char
    -- The count can be for an atom or a closing parenthesis.
    if previous_char = some ')' ∨ previous_char = some ']' then
      .Ok (consumed, parenthesis_depth,
           atom_blocks.map (fun atom =>
             if parenthesis_depth < atom.parenthesis_depth then
               { atom with count := atom.count * count }
             else atom))
    else if prevTakesCount previous_char then
      match atom_blocks with
      | [] => .Err NumberAfterUnknowAtom
      | last_atom :: rest => .Ok (consumed, parenthesis_depth, { last_atom with count := count } :: rest)
    else
      .Ok (consumed, parenthesis_depth, atom_blocks)
  else
    -- Any other char is forgotten.
    .Ok (1, parenthesis_depth, atom_blocks)

/-- The scanning loop itself: recursion over the remaining characters.
`previous_char` is set to the char the iteration started on, exactly as the
source does at the bottom of the loop body. -/
def scanFormula : List Char → Option Char → Int → List AtomBlock →
    RustResult (List AtomBlock × Int) SortEmpiricalFormulaError
  | [], _, parenthesis_depth, atom_blocks => .Ok (atom_blocks, parenthesis_depth)
  | [c], previous_char, d, bs =>
    match scanStep c none d previous_char bs with
    | .Err e => .Err e
    | .Ok (_, d', bs') => .Ok (bs', d')
  | c :: c2 :: rest, previous_char, d, bs =>
    match scanStep c (some c2) d previous_char bs with
    | .Err e => .Err e
    | .Ok (consumed, d', bs') =>
      if consumed = 2 then scanFormula rest (some c) d' bs'
      else scanFormula (c2 :: rest) (some c) d' bs'

/-- Aggregation loop body (src/formula.rs lines 343-359): fold the blocks,
in scan order, into a symbol → total map. -/
def aggAux : List (String × Nat) → List AtomBlock →
    RustResult (List (String × Nat)) SortEmpiricalFormulaError
  | acc, [] => .Ok acc
  | acc, atom_block :: rest =>
    if containsKeyA acc atom_block.atom_name then
      match lookupA acc atom_block.atom_name with
      | some atom_count =>
          aggAux (acc.map (fun p =>
            if p.1 = atom_block.atom_name then (p.1, atom_count + atom_block.count) else p)) rest
      | none =>
          -- Should never happen.
          .Err (UnexpectedNoneAtomCount atom_block.atom_name)
    else
      aggAux (acc ++ [(atom_block.atom_name, atom_block.count)]) rest

/-- `atom_count_map` built from the blocks in scan order. -/
def aggregate (atom_blocks : List AtomBlock) :
    RustResult (List (String × Nat)) SortEmpiricalFormulaError :=
  aggAux [] atom_blocks

/-- `symbol` alone when the count is 1, else `symbol` followed by the count
(the emission pattern used three times in src/formula.rs lines 367-397). -/
def emitAtom (sym : String) (n : Nat) : String :=
  if n = 1 then sym else sym ++ Nat.repr n

/-- Lexicographic-by-codepoint order on strings: the order `Vec<&String>::sort`
uses (for ASCII data, byte order and codepoint order agree). -/
def lexLe : List Char → List Char → Bool
  | [], _ => true
  | _ :: _, [] => false
  | a :: as, b :: bs => if a < b then true else if a = b then lexLe as bs else false

/-- Strict version of `lexLe`. -/
def lexLt : List Char → List Char → Bool
  | _, [] => false
  | [], _ :: _ => true
  | a :: as, b :: bs => if a < b then true else if a = b then lexLt as bs else false

/-- The proposition form of `lexLe` on `String`, used as the sort relation. -/
def rle (a b : String) : Prop := lexLe a.data b.data = true

instance : DecidableRel rle := fun a b => by unfold rle; infer_instance

/-- The final loop over the sorted remaining keys
(src/formula.rs lines 386-397). The `none` arm mirrors the `unwrap`: the keys
iterated are exactly the keys of the map, so the lookup always succeeds. -/
def emit_sorted (m2 : List (String × Nat)) (ks : List String) : String :=
  (List.insertionSort rle ks).foldl
    (fun acc key =>
      match lookupA m2 key with
      | some atom_count => acc ++ emitAtom key atom_count
      | none => acc)
    ""

/-- Building the empirical formula from `atom_count_map`
(src/formula.rs lines 363-401): C, then H, then the rest sorted. -/
def final_formula (atom_count_map : List (String × Nat)) : String :=
  let (f1, m1) :=
    match lookupA atom_count_map "C" with
    | some n => (emitAtom "C" n, eraseA atom_count_map "C")
    | none => ("", atom_count_map)
  let (f2, m2) :=
    match lookupA m1 "H" with
    | some n => (f1 ++ emitAtom "H" n, eraseA m1 "H")
    | none => (f1, m1)
  f2 ++ emit_sorted m2 (m2.map Prod.fst)

/-- Mirror of `pub fn sort_empirical_formula` (src/formula.rs lines 50-402).
The scan accumulates blocks most-recent-first, so they are reversed back to
push order before aggregation. -/
def sort_empirical_formula (formula : String) :
    RustResult String SortEmpiricalFormulaError :=
  match scanFormula formula.data none 0 [] with
  | .Err e => .Err e
  | .Ok (atom_blocks, _) =>
    match aggregate atom_blocks.reverse with
    | .Err e => .Err e
    | .Ok atom_count_map => .Ok (final_formula atom_count_map)

/-- The totals map a formula aggregates to (scan + aggregate, no formatting);
used to state claims about per-atom totals. -/
def formulaTotals (formula : String) :
    RustResult (List (String × Nat)) SortEmpiricalFormulaError :=
  match scanFormula formula.data none 0 [] with
  | .Err e => .Err e
  | .Ok (atom_blocks, _) => aggregate atom_blocks.reverse

/-- Number of characters a digit token consumes given the lookahead char. -/
def numLen (maybe_next_char : Option Char) : Nat :=
  match maybe_next_char with
  | some next_char => if isAsciiDigit next_char then 2 else 1
  | none => 1

/-- Numeric value of a digit token given the lookahead char. -/
def numVal (current_char : Char) (maybe_next_char : Option Char) : Nat :=
  match maybe_next_char with
  | some next_char =>
      if isAsciiDigit next_char then 10 * digitVal current_char + digitVal next_char
      else digitVal current_char
  | none => digitVal current_char

/-- A character the scanner's wildcard arm forgets: not a bracket, not an
ASCII uppercase letter, not an ASCII digit. -/
def otherChar (c : Char) : Prop :=
  ¬(c = '(' ∨ c = '[') ∧ ¬(c = ')' ∨ c = ']') ∧
    isAsciiUpper c = false ∧ isAsciiDigit c = false

instance : DecidablePred otherChar := fun c => by unfold otherChar; infer_instance

/-- The scan, continued from the given state, eventually processes a closing
bracket that would drive the depth negative. One constructor per way a scan
iteration can continue: the offending close is under the cursor now, or the
current iteration succeeds (consuming one or two chars) and the close is hit
later. -/
inductive HitsUnbalanced : List Char → Option Char → Int → List AtomBlock → Prop where
  | here {c : Char} {rest : List Char} {prev : Option Char} {d : Int} {bs : List AtomBlock} :
      (c = ')' ∨ c = ']') → d - 1 < 0 → HitsUnbalanced (c :: rest) prev d bs
  | step1 {c : Char} {rest : List Char} {prev : Option Char} {d : Int} {bs : List AtomBlock}
      {consumed : Nat} {d' : Int} {bs' : List AtomBlock} :
      scanStep c rest.head? d prev bs = .Ok (consumed, d', bs') → consumed ≠ 2 →
      HitsUnbalanced rest (some c) d' bs' → HitsUnbalanced (c :: rest) prev d bs
  | step2 {c c2 : Char} {rest : List Char} {prev : Option Char} {d : Int} {bs : List AtomBlock}
      {d' : Int} {bs' : List AtomBlock} :
      scanStep c (some c2) d prev bs = .Ok (2, d', bs') →
      HitsUnbalanced rest (some c) d' bs' → HitsUnbalanced (c :: c2 :: rest) prev d bs

/-- One `symbol`-`count` pair of a formula written in canonical form. -/
structure Entry where
  sym : String
  cnt : Nat
deriving DecidableEq, Repr

/-- Modelled from the spec: an already-canonical formula writes each element
symbol followed by its bare count, the count omitted when it is 1. -/
def renderEntry (e : Entry) : String :=
  e.sym ++ (if e.cnt = 1 then "" else Nat.repr e.cnt)

/-- Modelled from the spec: a canonical formula is the concatenation of its
entries, no separators. -/
def renderFormula : List Entry → String
  | [] => ""
  | e :: es => renderEntry e ++ renderFormula es

/-- Strict string order used to state Hill ordering. -/
def strLtB (a b : String) : Bool := lexLt a.data b.data

/-- An entry whose symbol is in the periodic table and whose count is a
positive integer (the claim as stated puts no upper bound on counts). -/
def entryOkAny (e : Entry) : Bool := ptContains e.sym && decide (1 ≤ e.cnt)

/-- An entry whose symbol is in the periodic table and whose count lies in
1..99 (the range the two-digit scanner can read back). -/
def entryOk99 (e : Entry) : Bool :=
  ptContains e.sym && decide (1 ≤ e.cnt) && decide (e.cnt ≤ 99)

/-- Strip one leading Carbon entry, when present. -/
def afterC : List Entry → List Entry
  | [] => []
  | e :: rest => if e.sym = "C" then rest else e :: rest

/-- Strip one leading Hydrogen entry, when present. -/
def afterH : List Entry → List Entry
  | [] => []
  | e :: rest => if e.sym = "H" then rest else e :: rest

/-- The part of a canonical formula after C and H: symbols strictly
increasing lexicographically, none of them C or H. -/
def tailOk : List Entry → Bool
  | [] => true
  | [e] => !(e.sym == "C") && !(e.sym == "H")
  | e1 :: e2 :: rest =>
      !(e1.sym == "C") && !(e1.sym == "H") && strLtB e1.sym e2.sym && tailOk (e2 :: rest)

/-- Modelled from the spec: Hill-ordered, bracket-free canonical form — an
optional C entry first, an optional H entry next, then the remaining symbols
in strictly increasing lexicographic order, every entry passing `ok`. -/
def isCanonicalWith (ok : Entry → Bool) (es : List Entry) : Bool :=
  es.all ok && tailOk (afterH (afterC es))

/-- The shape every periodic-table key has: one ASCII uppercase letter,
optionally followed by one ASCII lowercase letter. -/
def symShape (s : String) : Bool :=
  match s.data with
  | [u] => isAsciiUpper u
  | [u, l] => isAsciiUpper u && isAsciiLower l
  | _ => false

/-- The sequence of symbols the formatter emits, in emission order: C when
present, then H when present, then the remaining keys sorted. -/
def hillKeys (m : List (String × Nat)) : List String :=
  (if (lookupA m "C").isSome then ["C"] else []) ++
  (if (lookupA m "H").isSome then ["H"] else []) ++
  List.insertionSort rle ((eraseA (eraseA m "C") "H").map Prod.fst)

/-! ### Character-class facts -/

theorem upper_char_props {c : Char} (hu : isAsciiUpper c = true) :
    c ≠ '(' ∧ c ≠ '[' ∧ c ≠ ')' ∧ c ≠ ']' ∧
      isAsciiDigit c = false ∧ isAsciiLower c = false ∧ c ≠ 'a' := by
  simp only [isAsciiUpper, Bool.and_eq_true, decide_eq_true_eq] at hu
  obtain ⟨h1, h2⟩ := hu
  refine ⟨?_, ?_, ?_, ?_, ?_, ?_, ?_⟩
  · intro h; subst h; exact absurd h1 (by decide)
  · intro h; subst h; exact absurd h2 (by decide)
  · intro h; subst h; exact absurd h1 (by decide)
  · intro h; subst h; exact absurd h2 (by decide)
  · by_cases hc : c ≤ '9'
    · exact absurd (le_trans h1 hc) (by decide)
    · simp [isAsciiDigit, hc]
  · by_cases hc : 'a' ≤ c
    · exact absurd (le_trans hc h2) (by decide)
    · simp [isAsciiLower, hc]
  · intro h; subst h; exact absurd h2 (by decide)

theorem digit_char_props {c : Char} (hd : isAsciiDigit c = true) :
    c ≠ '(' ∧ c ≠ '[' ∧ c ≠ ')' ∧ c ≠ ']' ∧
      isAsciiUpper c = false ∧ isAsciiLower c = false := by
  simp only [isAsciiDigit, Bool.and_eq_true, decide_eq_true_eq] at hd
  obtain ⟨h1, h2⟩ := hd
  refine ⟨?_, ?_, ?_, ?_, ?_, ?_⟩
  · intro h; subst h; exact absurd h1 (by decide)
  · intro h; subst h; exact absurd h2 (by decide)
  · intro h; subst h; exact absurd h1 (by decide)
  · intro h; subst h; exact absurd h2 (by decide)
  · by_cases hc : 'A' ≤ c
    · exact absurd (le_trans hc h2) (by decide)
    · simp [isAsciiUpper, hc]
  · by_cases hc : 'a' ≤ c
    · exact absurd (le_trans hc h2) (by decide)
    · simp [isAsciiLower, hc]

theorem close_not_open {c : Char} (h : c = ')' ∨ c = ']') : ¬(c = '(' ∨ c = '[') := by
  rcases h with h | h <;> subst h <;> decide

/-! ### One-iteration characterizations of `scanStep` -/

theorem scanStep_open {c : Char} (h : c = '(' ∨ c = '[')
    (n? : Option Char) (d : Int) (p : Option Char) (bs : List AtomBlock) :
    scanStep c n? d p bs = .Ok (1, d + 1, bs) := by
  unfold scanStep; rw [if_pos h]

theorem scanStep_close_err {c : Char} (h : c = ')' ∨ c = ']') {d : Int} (hd : d - 1 < 0)
    (n? : Option Char) (p : Option Char) (bs : List AtomBlock) :
    scanStep c n? d p bs = .Err UnbalancedParenthesis := by
  unfold scanStep; rw [if_neg (close_not_open h), if_pos h, if_pos hd]

theorem scanStep_close_ok {c : Char} (h : c = ')' ∨ c = ']') {d : Int} (hd : ¬(d - 1 < 0))
    (n? : Option Char) (p : Option Char) (bs : List AtomBlock) :
    scanStep c n? d p bs = .Ok (1, d - 1, bs) := by
  unfold scanStep; rw [if_neg (close_not_open h), if_pos h, if_neg hd]

theorem scanStep_upper_two {c l : Char} (hu : isAsciiUpper c = true)
    (hl : isAsciiLower l = true) (d : Int) (p : Option Char) (bs : List AtomBlock) :
    scanStep c (some l) d p bs =
      if ptContains ⟨[c, l]⟩ then .Ok (2, d, ⟨⟨[c, l]⟩, d, 1⟩ :: bs)
      else .Err (UnknowAtom ⟨[c, l]⟩) := by
  obtain ⟨h1, h2, h3, h4, _, _, _⟩ := upper_char_props hu
  unfold scanStep
  rw [if_neg (by tauto), if_neg (by tauto), if_pos hu]
  simp only [hl, if_true]
  rfl

theorem scanStep_upper_one {c : Char} (hu : isAsciiUpper c = true)
    {n? : Option Char} (hn : n? = none ∨ ∃ l, n? = some l ∧ isAsciiLower l = false)
    (d : Int) (p : Option Char) (bs : List AtomBlock) :
    scanStep c n? d p bs =
      if ptContains ⟨[c]⟩ then .Ok (1, d, ⟨⟨[c]⟩, d, 1⟩ :: bs)
      else .Err (UnknowAtom ⟨[c]⟩) := by
  obtain ⟨h1, h2, h3, h4, _, _, _⟩ := upper_char_props hu
  unfold scanStep
  rw [if_neg (by tauto), if_neg (by tauto), if_pos hu]
  rcases hn with hn | ⟨l, hn, hl⟩ <;> subst hn
  · rfl
  · simp only [hl, if_false]
    rfl

theorem scanStep_digit_close {c : Char} (hd : isAsciiDigit c = true)
    {p : Option Char} (hp : p = some ')' ∨ p = some ']')
    (n? : Option Char) (d : Int) (bs : List AtomBlock) :
    scanStep c n? d p bs =
      .Ok (numLen n?, d,
        bs.map (fun atom =>
          if d < atom.parenthesis_depth then
            { atom with count := atom.count * numVal c n? }
          else atom)) := by
  obtain ⟨h1, h2, h3, h4, h5, _⟩ := digit_char_props hd
  unfold scanStep
  rw [if_neg (by tauto), if_neg (by tauto), if_neg (by simp [h5]), if_pos hd, if_pos hp]
  cases n? <;> rfl

theorem scanStep_digit_atom {c : Char} (hd : isAsciiDigit c = true)
    {p : Option Char} (hp : ¬(p = some ')' ∨ p = some ']'))
    (hp2 : prevTakesCount p = true)
    (n? : Option Char) (d : Int) (bs : List AtomBlock) :
    scanStep c n? d p bs =
      match bs with
      | [] => .Err NumberAfterUnknowAtom
      | b :: rest => .Ok (numLen n?, d, { b with count := numVal c n? } :: rest) := by
  obtain ⟨h1, h2, h3, h4, h5, _⟩ := digit_char_props hd
  unfold scanStep
  rw [if_neg (by tauto), if_neg (by tauto), if_neg (by simp [h5]), if_pos hd,
    if_neg hp, if_pos hp2]
  cases bs <;> cases n? <;> rfl

theorem scanStep_digit_skip {c : Char} (hd : isAsciiDigit c = true)
    {p : Option Char} (hp : ¬(p = some ')' ∨ p = some ']'))
    (hp2 : prevTakesCount p = false)
    (n? : Option Char) (d : Int) (bs : List AtomBlock) :
    scanStep c n? d p bs = .Ok (numLen n?, d, bs) := by
  obtain ⟨h1, h2, h3, h4, h5, _⟩ := digit_char_props hd
  unfold scanStep
  rw [if_neg (by tauto), if_neg (by tauto), if_neg (by simp [h5]), if_pos hd,
    if_neg hp, if_neg (by simp [hp2])]
  cases n? <;> rfl

theorem scanStep_other {c : Char} (h1 : ¬(c = '(' ∨ c = '['))
    (h2 : ¬(c = ')' ∨ c = ']')) (h3 : isAsciiUpper c = false)
    (h4 : isAsciiDigit c = false)
    (n? : Option Char) (d : Int) (p : Option Char) (bs : List AtomBlock) :
    scanStep c n? d p bs = .Ok (1, d, bs) := by
  unfold scanStep
  rw [if_neg h1, if_neg h2, if_neg (by simp [h3]), if_neg (by simp [h4])]

/-- Unfolding of one loop iteration, uniform over the remaining input. -/
theorem scanFormula_cons (c : Char) (rest : List Char) (prev : Option Char)
    (d : Int) (bs : List AtomBlock) :
    scanFormula (c :: rest) prev d bs =
      match scanStep c rest.head? d prev bs with
      | .Err e => .Err e
      | .Ok (consumed, d', bs') =>
        if consumed = 2 then scanFormula rest.tail (some c) d' bs'
        else scanFormula rest (some c) d' bs' := by
  cases rest with
  | nil =>
    cases hs : scanStep c none d prev bs with
    | Err e => simp only [scanFormula, List.head?_nil, hs]
    | Ok v =>
      obtain ⟨consumed, d', bs'⟩ := v
      simp only [scanFormula, List.head?_nil, List.tail_nil, hs]
      split <;> rfl
  | cons c2 r => rfl

/-- The aggregation loop can never take its defensive error branch: the
branch requires `contains_key` to succeed while the lookup of the same key
fails, which is contradictory. -/
theorem aggAux_ok : ∀ (bs : List AtomBlock) (acc : List (String × Nat)),
    ∃ m, aggAux acc bs = .Ok m := by
  intro bs
  induction bs with
  | nil => exact fun acc => ⟨acc, rfl⟩
  | cons b rest ih =>
    intro acc
    unfold aggAux
    by_cases hc : containsKeyA acc b.atom_name = true
    · rw [if_pos hc]
      cases hl : lookupA acc b.atom_name with
      | none => rw [containsKeyA, hl] at hc; simp at hc
      | some n => exact ih _
    · rw [if_neg hc]
      exact ih _

/-- C1. The claim expects totals C=4, Ca=2, Cl=7, Na=6 and output
`"C4Ca2Cl7Na6"` on the worked example. The code also scans the trailing
`.Na=P`: `.` and `=` are forgotten, but `Na` and `P` are valid atoms, so Na
totals 7 (6 from the groups plus 1 outside) and P appears with count 1. The
claimed output is therefore not what the function returns. -/
theorem c1_counterexample :
    ¬(sort_empirical_formula "Cl(CaC2(NaCl)3)2.Na=P" = .Ok "C4Ca2Cl7Na6") := by
  decide

/-- C1 (amended). On `"Cl(CaC2(NaCl)3)2.Na=P"` the totals are C=4, Ca=2,
Cl=7, Na=7, P=1 — the groups contribute Na=6 and Cl=6 exactly as the claim
traces (innermost ×3, enclosing ×2), plus the outer Cl=1 and the trailing
`.Na=P` contributing Na=1 and P=1 — and the output is `"C4Ca2Cl7Na7P"`. -/
theorem c1_amended :
    sort_empirical_formula "Cl(CaC2(NaCl)3)2.Na=P" = .Ok "C4Ca2Cl7Na7P" ∧
    formulaTotals "Cl(CaC2(NaCl)3)2.Na=P" =
      .Ok [("Cl", 7), ("Ca", 2), ("C", 4), ("Na", 7), ("P", 1)] := by
  constructor <;> decide

/-- C3. The claim says a digit scanned with previous-token class None or
Other fails with a number-without-context error. The code instead returns
`Ok` for both: a formula starting with a digit and a digit after an ignored
separator both parse to the empty canonical formula. -/
theorem c3_counterexample :
    sort_empirical_formula "2" = .Ok "" ∧ sort_empirical_formula "-2" = .Ok "" := by
  constructor <;> decide

/-- C3 (amended). A digit scanned when the previous char is `None` or an
ignored character is silently skipped (no error, blocks unchanged) — with
one exception inherited from the source's `Some('a'..='a')` pattern: when
the previous char is exactly `'a'` the digit is treated as an atom count,
and errors with `NumberAfterUnknowAtom` when no atom block exists yet. -/
theorem c3_amended :
    (∀ (c : Char) (n? : Option Char) (d : Int) (p : Char) (bs : List AtomBlock),
      isAsciiDigit c = true →
      ¬(p = ')' ∨ p = ']') → p ≠ 'a' → isAsciiUpper p = false →
      scanStep c n? d (some p) bs = .Ok (numLen n?, d, bs)) ∧
    (∀ (c : Char) (n? : Option Char) (d : Int) (bs : List AtomBlock),
      isAsciiDigit c = true → scanStep c n? d none bs = .Ok (numLen n?, d, bs)) ∧
    (∀ (c : Char) (n? : Option Char) (d : Int),
      isAsciiDigit c = true →
      scanStep c n? d (some 'a') [] = .Err NumberAfterUnknowAtom) := by
  refine ⟨?_, ?_, ?_⟩
  · intro c n? d p bs hc hp ha hu
    refine scanStep_digit_skip hc ?_ ?_ n? d bs
    · intro h
      rcases h with h | h <;> exact hp (by simp_all)
    · simp [prevTakesCount, hu, ha]
  · intro c n? d bs hc
    exact scanStep_digit_skip hc (by simp) (by simp [prevTakesCount]) n? d bs
  · intro c n? d hc
    have h := scanStep_digit_atom hc (p := some 'a') (by simp) (by simp [prevTakesCount])
      n? d []
    simpa using h

/-- Witness for C3 (amended): instantiated at a digit after a separator,
a digit at the start, and a digit after a lone `'a'`. -/
theorem c3_amended_witness :
    scanStep '2' none 0 (some '-') [] = .Ok (1, 0, []) ∧
    scanStep '2' none 0 none [] = .Ok (1, 0, []) ∧
    scanStep '2' none 0 (some 'a') [] = .Err NumberAfterUnknowAtom :=
  ⟨c3_amended.1 '2' none 0 '-' [] (by decide) (by decide) (by decide) (by decide),
   c3_amended.2.1 '2' none 0 [] (by decide),
   c3_amended.2.2 '2' none 0 (by decide)⟩

/-- C4. The claim predicts that in `"(H)2(O)3"` the multiplier 3 applies
only to the occurrences inside its own group (giving H2O3). The code
multiplies every block whose recorded depth exceeds the restored depth —
including the already-closed sibling group — so H is scaled by both 2 and 3
and the result is `"H6O3"`. -/
theorem c4_counterexample :
    ¬(sort_empirical_formula "(H)2(O)3" = .Ok "H2O3") ∧
    sort_empirical_formula "(H)2(O)3" = .Ok "H6O3" := by
  constructor <;> decide

/-- C4 (amended). A multiplier N after a closing bracket multiplies exactly
the already-recorded occurrences whose recorded depth is strictly greater
than the depth restored by that close — which includes occurrences of
earlier sibling groups that were scanned at a deeper depth, not only the
occurrences inside the group just closed — and leaves the rest unchanged. -/
theorem c4_amended (cl dc : Char) (rest : List Char) (prev : Option Char)
    (d : Int) (bs : List AtomBlock)
    (hcl : cl = ')' ∨ cl = ']') (hdc : isAsciiDigit dc = true)
    (hd : ¬(d - 1 < 0))
    (hrest : ∀ c2, rest.head? = some c2 → isAsciiDigit c2 = false) :
    scanFormula (cl :: dc :: rest) prev d bs =
      scanFormula rest (some dc) (d - 1)
        (bs.map (fun atom =>
          if d - 1 < atom.parenthesis_depth then
            { atom with count := atom.count * digitVal dc }
          else atom)) := by
  rw [scanFormula_cons]
  simp only [List.head?_cons, List.tail_cons]
  rw [scanStep_close_ok hcl hd]
  simp only [if_neg (by decide : ¬(1 = 2))]
  rw [scanFormula_cons]
  rw [scanStep_digit_close hdc (by simp [hcl])]
  have hlen : numLen rest.head? = 1 := by
    cases hr : rest.head? with
    | none => rfl
    | some c2 => simp [numLen, hrest c2 hr]
  have hval : numVal dc rest.head? = digitVal dc := by
    cases hr : rest.head? with
    | none => rfl
    | some c2 => simp [numVal, hrest c2 hr]
  rw [hlen, hval]
  simp only [if_neg (by decide : ¬(1 = 2))]

/-- Witness for C4 (amended): closing a group at depth 1 and multiplying by
3 scales the deeper-recorded H block in place. -/
theorem c4_amended_witness :
    scanFormula [')', '3'] none 1 [⟨"H", 1, 2⟩] = .Ok ([⟨"H", 1, 6⟩], 0) := by
  rw [c4_amended ')' '3' [] none 1 [⟨"H", 1, 2⟩] (Or.inl rfl) (by decide) (by decide)
    (by intro c2 h; cases h)]
  decide

/-- C5. The claim says that when a two-character lookup fails the scanner
falls back to the single uppercase character. The code has no such
fallback: `"Cx"` fails with `UnknowAtom "Cx"` even though `"C"` is a valid
one-letter symbol. -/
theorem c5_counterexample :
    sort_empirical_formula "Cx" = .Err (UnknowAtom "Cx") ∧ ptContains "C" = true := by
  constructor <;> decide

/-- C5 (amended). When an uppercase letter is followed by a lowercase
letter, only the two-character token is looked up: if it is absent the scan
fails with `UnknowAtom` on that two-character token, even when the single
uppercase letter alone is a valid symbol. The single-character lookup is
used only when the next character is absent or not lowercase. -/
theorem c5_amended (c : Char) (n? : Option Char) (d : Int) (p : Option Char)
    (bs : List AtomBlock) (hu : isAsciiUpper c = true) :
    (∀ l, n? = some l → isAsciiLower l = true →
      scanStep c n? d p bs =
        if ptContains ⟨[c, l]⟩ then .Ok (2, d, ⟨⟨[c, l]⟩, d, 1⟩ :: bs)
        else .Err (UnknowAtom ⟨[c, l]⟩)) ∧
    ((n? = none ∨ ∃ l, n? = some l ∧ isAsciiLower l = false) →
      scanStep c n? d p bs =
        if ptContains ⟨[c]⟩ then .Ok (1, d, ⟨⟨[c]⟩, d, 1⟩ :: bs)
        else .Err (UnknowAtom ⟨[c]⟩)) := by
  constructor
  · intro l hn hl
    subst hn
    exact scanStep_upper_two hu hl d p bs
  · intro hn
    exact scanStep_upper_one hu hn d p bs

/-- Witness for C5 (amended): at `'C'` followed by `'x'` the scan errors
with `UnknowAtom "Cx"` — no fallback to the valid symbol `"C"`. -/
theorem c5_amended_witness :
    scanStep 'C' (some 'x') 0 none [] = .Err (UnknowAtom "Cx") := by
  rw [(c5_amended 'C' (some 'x') 0 none [] (by decide)).1 'x' rfl (by decide)]
  decide

/-- C9. An unclosed opening bracket is not an error: whenever the scan of
the whole input completes (in particular with a strictly positive final
depth), the function returns `Ok`, and the output is built from exactly the
blocks the scan accumulated — no multiplier is applied for unclosed groups.
In particular `"(H2O"` parses to `"H2O"`. -/
theorem c9_unclosed_ok :
    (∀ (s : String) (bs : List AtomBlock) (d : Int),
      scanFormula s.data none 0 [] = .Ok (bs, d) → 0 < d →
      ∃ m, aggregate bs.reverse = .Ok m ∧
        sort_empirical_formula s = .Ok (final_formula m)) ∧
    sort_empirical_formula "(H2O" = .Ok "H2O" := by
  constructor
  · intro s bs d hscan _
    obtain ⟨m, hm⟩ := aggAux_ok bs.reverse []
    have hm2 : aggregate bs.reverse = .Ok m := hm
    refine ⟨m, hm2, ?_⟩
    unfold sort_empirical_formula
    simp only [hscan, hm2]
  · decide

/-- Witness for C9: the scan of `"(H2O"` ends at depth 1 with blocks H2, O;
the function still returns `Ok`. -/
theorem c9_unclosed_ok_witness :
    ∃ m, aggregate ([⟨"O", 1, 1⟩, ⟨"H", 1, 2⟩] : List AtomBlock).reverse = .Ok m ∧
      sort_empirical_formula "(H2O" = .Ok (final_formula m) :=
  c9_unclosed_ok.1 "(H2O" [⟨"O", 1, 1⟩, ⟨"H", 1, 2⟩] 1 (by decide) (by decide)

/-- The scanner leaves both the blocks and the depth unchanged across a run
of forgotten characters. -/
theorem scan_others : ∀ (rest : List Char), (∀ c ∈ rest, otherChar c) →
    ∀ (prev : Option Char) (d : Int) (bs : List AtomBlock),
    scanFormula rest prev d bs = .Ok (bs, d) := by
  intro rest
  induction rest with
  | nil => intro _ _ _ _; rfl
  | cons c r ih =>
    intro h prev d bs
    obtain ⟨h1, h2, h3, h4⟩ := h c (List.mem_cons_self c r)
    rw [scanFormula_cons, scanStep_other h1 h2 h3 h4]
    simp only [if_neg (by decide : ¬(1 = 2))]
    exact ih (fun c hc => h c (List.mem_cons_of_mem _ hc)) _ _ _

/-- C10. `sort_empirical_formula ""` returns `Ok ""`, and any input made
only of characters the scanner forgets (no ASCII uppercase letter, no ASCII
digit, no bracket) returns `Ok ""` rather than an error. -/
theorem c10_empty :
    sort_empirical_formula "" = .Ok "" ∧
    (∀ s : String, (∀ c ∈ s.data, otherChar c) →
      sort_empirical_formula s = .Ok "") := by
  constructor
  · rfl
  · intro s h
    unfold sort_empirical_formula
    rw [scan_others s.data h none 0 []]
    rfl

/-- Witness for C10: a string of separators, lowercase letters and
punctuation parses to the empty canonical formula. -/
theorem c10_empty_witness : sort_empirical_formula "z.=- " = .Ok "" :=
  c10_empty.2 "z.=- " (by decide)

/-! ### The unbalanced-close error (C6) -/

/-- A scan iteration produces `UnbalancedParenthesis` exactly on a closing
bracket whose decrement would drive the depth negative. -/
theorem scanStep_err_unb (c : Char) (n? : Option Char) (d : Int) (p : Option Char)
    (bs : List AtomBlock) :
    scanStep c n? d p bs = .Err UnbalancedParenthesis ↔
      ((c = ')' ∨ c = ']') ∧ d - 1 < 0) := by
  by_cases h1 : c = '(' ∨ c = '['
  · rw [scanStep_open h1]
    constructor
    · intro h; simp at h
    · rintro ⟨h2, -⟩
      rcases h1 with h1 | h1 <;> subst h1 <;> exact absurd h2 (by decide)
  · by_cases h2 : c = ')' ∨ c = ']'
    · by_cases hd : d - 1 < 0
      · rw [scanStep_close_err h2 hd]
        simp [h2, hd]
      · rw [scanStep_close_ok h2 hd]
        constructor
        · intro h; simp at h
        · rintro ⟨-, hd'⟩; exact absurd hd' hd
    · have hnc : ¬((c = ')' ∨ c = ']') ∧ d - 1 < 0) := fun hh => h2 hh.1
      simp only [hnc, iff_false]
      by_cases h3 : isAsciiUpper c = true
      · cases n? with
        | none =>
          rw [scanStep_upper_one h3 (Or.inl rfl)]
          split <;> intro h <;> simp at h
        | some l =>
          by_cases hl : isAsciiLower l = true
          · rw [scanStep_upper_two h3 hl]
            split <;> intro h <;> simp at h
          · rw [scanStep_upper_one h3 (Or.inr ⟨l, rfl, by simpa using hl⟩)]
            split <;> intro h <;> simp at h
      · by_cases h4 : isAsciiDigit c = true
        · by_cases hp : p = some ')' ∨ p = some ']'
          · rw [scanStep_digit_close h4 hp]
            intro h; simp at h
          · by_cases hp2 : prevTakesCount p = true
            · rw [scanStep_digit_atom h4 hp hp2]
              cases bs <;> intro h <;> simp at h
            · rw [scanStep_digit_skip h4 hp (by simpa using hp2)]
              intro h; simp at h
        · rw [scanStep_other h1 h2 (by simpa using h3) (by simpa using h4)]
          intro h; simp at h

/-- A successful iteration changes the depth by +1, by -1 while staying
nonnegative, or not at all — so a nonnegative depth stays nonnegative. -/
theorem scanStep_depth (c : Char) (n? : Option Char) (d : Int) (p : Option Char)
    (bs : List AtomBlock) {consumed : Nat} {d' : Int} {bs' : List AtomBlock}
    (h : scanStep c n? d p bs = .Ok (consumed, d', bs')) :
    d' = d + 1 ∨ (d' = d - 1 ∧ 0 ≤ d') ∨ d' = d := by
  by_cases h1 : c = '(' ∨ c = '['
  · rw [scanStep_open h1] at h
    simp only [RustResult.Ok.injEq, Prod.mk.injEq] at h
    omega
  · by_cases h2 : c = ')' ∨ c = ']'
    · by_cases hd : d - 1 < 0
      · rw [scanStep_close_err h2 hd] at h; simp at h
      · rw [scanStep_close_ok h2 hd] at h
        simp only [RustResult.Ok.injEq, Prod.mk.injEq] at h
        omega
    · by_cases h3 : isAsciiUpper c = true
      · have huse : ∀ s : String,
            (if ptContains s then
              (.Ok (s.length, d, ⟨s, d, 1⟩ :: bs) :
                RustResult (Nat × Int × List AtomBlock) SortEmpiricalFormulaError)
             else .Err (UnknowAtom s)) = .Ok (consumed, d', bs') → d' = d := by
          intro s hh
          split at hh
          · simp only [RustResult.Ok.injEq, Prod.mk.injEq] at hh
            exact hh.2.1.symm
          · cases hh
        cases n? with
        | none => exact Or.inr (Or.inr (huse _ ((scanStep_upper_one h3 (Or.inl rfl) d p bs) ▸ h)))
        | some l =>
          by_cases hl : isAsciiLower l = true
          · exact Or.inr (Or.inr (huse _ ((scanStep_upper_two h3 hl d p bs) ▸ h)))
          · exact Or.inr (Or.inr (huse _
              ((scanStep_upper_one h3 (Or.inr ⟨l, rfl, by simpa using hl⟩) d p bs) ▸ h)))
      · by_cases h4 : isAsciiDigit c = true
        · by_cases hp : p = some ')' ∨ p = some ']'
          · rw [scanStep_digit_close h4 hp] at h
            simp only [RustResult.Ok.injEq, Prod.mk.injEq] at h
            omega
          · by_cases hp2 : prevTakesCount p = true
            · rw [scanStep_digit_atom h4 hp hp2] at h
              cases bs with
              | nil => cases h
              | cons b rest =>
                simp only [RustResult.Ok.injEq, Prod.mk.injEq] at h
                omega
            · rw [scanStep_digit_skip h4 hp (by simpa using hp2)] at h
              simp only [RustResult.Ok.injEq, Prod.mk.injEq] at h
              omega
        · rw [scanStep_other h1 h2 (by simpa using h3) (by simpa using h4)] at h
          simp only [RustResult.Ok.injEq, Prod.mk.injEq] at h
          omega

/-- With no lookahead character an iteration never consumes two chars. -/
theorem scanStep_none_not_two (c : Char) (d : Int) (p : Option Char)
    (bs : List AtomBlock) {consumed : Nat} {d' : Int} {bs' : List AtomBlock}
    (h : scanStep c none d p bs = .Ok (consumed, d', bs')) : consumed ≠ 2 := by
  intro hcc
  subst hcc
  by_cases h1 : c = '(' ∨ c = '['
  · rw [scanStep_open h1] at h
    simp only [RustResult.Ok.injEq, Prod.mk.injEq] at h
    omega
  · by_cases h2 : c = ')' ∨ c = ']'
    · by_cases hd : d - 1 < 0
      · rw [scanStep_close_err h2 hd] at h
        cases h
      · rw [scanStep_close_ok h2 hd] at h
        simp only [RustResult.Ok.injEq, Prod.mk.injEq] at h
        omega
    · by_cases h3 : isAsciiUpper c = true
      · rw [scanStep_upper_one h3 (Or.inl rfl)] at h
        split at h
        · simp only [RustResult.Ok.injEq, Prod.mk.injEq] at h
          exact absurd h.1 (by decide)
        · cases h
      · by_cases h4 : isAsciiDigit c = true
        · by_cases hp : p = some ')' ∨ p = some ']'
          · rw [scanStep_digit_close h4 hp] at h
            simp only [RustResult.Ok.injEq, Prod.mk.injEq] at h
            exact absurd h.1 (by decide)
          · by_cases hp2 : prevTakesCount p = true
            · rw [scanStep_digit_atom h4 hp hp2] at h
              cases bs with
              | nil => cases h
              | cons b rest =>
                simp only [RustResult.Ok.injEq, Prod.mk.injEq] at h
                exact absurd h.1 (by decide)
            · rw [scanStep_digit_skip h4 hp (by simpa using hp2)] at h
              simp only [RustResult.Ok.injEq, Prod.mk.injEq] at h
              exact absurd h.1 (by decide)
        · rw [scanStep_other h1 h2 (by simpa using h3) (by simpa using h4)] at h
          simp only [RustResult.Ok.injEq, Prod.mk.injEq] at h
          omega

/-- The scan returns `UnbalancedParenthesis` exactly when it reaches a
closing bracket that would drive the depth negative (bounded induction on
the remaining input length). -/
theorem scan_err_unb_iff : ∀ (n : Nat) (rest : List Char), rest.length ≤ n →
    ∀ (prev : Option Char) (d : Int) (bs : List AtomBlock),
    (scanFormula rest prev d bs = .Err UnbalancedParenthesis ↔
      HitsUnbalanced rest prev d bs) := by
  intro n
  induction n with
  | zero =>
    intro rest hlen prev d bs
    have : rest = [] := List.eq_nil_of_length_eq_zero (Nat.le_zero.mp hlen)
    subst this
    constructor
    · intro h; simp [scanFormula] at h
    · intro h; cases h
  | succ n ih =>
    intro rest hlen prev d bs
    cases rest with
    | nil =>
      constructor
      · intro h; simp [scanFormula] at h
      · intro h; cases h
    | cons c rest' =>
      rw [scanFormula_cons]
      cases hstep : scanStep c rest'.head? d prev bs with
      | Err e =>
        constructor
        · intro h
          simp only [RustResult.Err.injEq] at h
          subst h
          obtain ⟨hcl, hneg⟩ := (scanStep_err_unb c rest'.head? d prev bs).mp hstep
          exact HitsUnbalanced.here hcl hneg
        · intro hh
          cases hh with
          | here hcl hneg =>
            rw [(scanStep_err_unb c rest'.head? d prev bs).mpr ⟨hcl, hneg⟩] at hstep
            simp only [RustResult.Err.injEq] at hstep
            rw [hstep]
          | step1 hs hne hrec => rw [hstep] at hs; cases hs
          | step2 hs hrec =>
            simp only [List.head?_cons] at hstep
            rw [hstep] at hs
            cases hs
      | Ok v =>
        obtain ⟨consumed, d', bs'⟩ := v
        change (if consumed = 2 then scanFormula rest'.tail (some c) d' bs'
                else scanFormula rest' (some c) d' bs') = .Err UnbalancedParenthesis ↔
               HitsUnbalanced (c :: rest') prev d bs
        have hlen' : rest'.length ≤ n := by
          simpa using Nat.le_of_succ_le_succ (by simpa using hlen)
        by_cases hc2 : consumed = 2
        · subst hc2
          rw [if_pos (rfl : (2 : Nat) = 2)]
          cases rest' with
          | nil =>
            simp only [List.head?_nil] at hstep
            exact absurd rfl (scanStep_none_not_two c d prev bs hstep)
          | cons c2 rest'' =>
            simp only [List.head?_cons] at hstep
            have htail : rest''.length ≤ n := by
              simp at hlen'
              omega
            rw [List.tail_cons]
            rw [ih rest'' htail (some c) d' bs']
            constructor
            · intro hrec
              exact HitsUnbalanced.step2 hstep hrec
            · intro hh
              cases hh with
              | here hcl hneg =>
                rw [(scanStep_err_unb c (some c2) d prev bs).mpr ⟨hcl, hneg⟩] at hstep
                cases hstep
              | step1 hs hne hrec =>
                simp only [List.head?_cons] at hs
                rw [hstep] at hs
                simp only [RustResult.Ok.injEq, Prod.mk.injEq] at hs
                exact absurd hs.1.symm hne
              | step2 hs hrec =>
                rw [hstep] at hs
                simp only [RustResult.Ok.injEq, Prod.mk.injEq] at hs
                obtain ⟨-, hd', hbs'⟩ := hs
                rw [hd', hbs']
                exact hrec
        · simp only [if_neg hc2]
          rw [ih rest' hlen' (some c) d' bs']
          constructor
          · intro hrec
            exact HitsUnbalanced.step1 hstep hc2 hrec
          · intro hh
            cases hh with
            | here hcl hneg =>
              rw [(scanStep_err_unb c rest'.head? d prev bs).mpr ⟨hcl, hneg⟩] at hstep
              cases hstep
            | step1 hs hne hrec =>
              rw [hstep] at hs
              simp only [RustResult.Ok.injEq, Prod.mk.injEq] at hs
              obtain ⟨-, hd', hbs'⟩ := hs
              rw [hd', hbs']
              exact hrec
            | step2 hs hrec =>
              simp only [List.head?_cons] at hstep
              rw [hstep] at hs
              simp only [RustResult.Ok.injEq, Prod.mk.injEq] at hs
              exact absurd hs.1 hc2

/-- C6. The scan fails with `UnbalancedParenthesis` exactly when it reaches
a closing bracket while the depth is already 0 (`d - 1 < 0` at a close,
i.e. depth 0 given the invariant); every successful iteration keeps a
nonnegative depth nonnegative, so the tracked depth never goes negative;
and in particular `")H2O"` fails with this error. -/
theorem c6_unbalanced :
    (∀ (rest : List Char) (prev : Option Char) (d : Int) (bs : List AtomBlock),
      scanFormula rest prev d bs = .Err UnbalancedParenthesis ↔
        HitsUnbalanced rest prev d bs) ∧
    (∀ (c : Char) (n? : Option Char) (d : Int) (p : Option Char) (bs : List AtomBlock)
      (consumed : Nat) (d' : Int) (bs' : List AtomBlock),
      0 ≤ d → scanStep c n? d p bs = .Ok (consumed, d', bs') → 0 ≤ d') ∧
    sort_empirical_formula ")H2O" = .Err UnbalancedParenthesis := by
  refine ⟨?_, ?_, ?_⟩
  · intro rest prev d bs
    exact scan_err_unb_iff rest.length rest (le_refl _) prev d bs
  · intro c n? d p bs consumed d' bs' h0 h
    rcases scanStep_depth c n? d p bs h with h | ⟨-, h⟩ | h <;> omega
  · decide

/-- Witness for C6: a single `')'` at depth 0 errors (via the
characterization), and a close at positive depth keeps the depth
nonnegative (via the invariant). -/
theorem c6_unbalanced_witness :
    scanFormula [')'] none 0 [] = .Err UnbalancedParenthesis ∧ (0 : Int) ≤ 0 :=
  ⟨(c6_unbalanced.1 [')'] none 0 []).mpr
    (HitsUnbalanced.here (Or.inl rfl) (by decide)),
   c6_unbalanced.2.1 ')' none 1 none [] 1 0 [] (by decide) (by decide)⟩

/-! ### The lexicographic string order used by the formatter's sort -/

theorem lexLe_refl : ∀ l : List Char, lexLe l l = true := by
  intro l
  induction l with
  | nil => rfl
  | cons x xs ih => simp [lexLe, lt_irrefl, ih]

theorem lexLe_total : ∀ a b : List Char, lexLe a b = true ∨ lexLe b a = true := by
  intro a
  induction a with
  | nil => intro b; left; rfl
  | cons x xs ih =>
    intro b
    cases b with
    | nil => right; rfl
    | cons y ys =>
      rcases lt_trichotomy x y with h | h | h
      · left; simp [lexLe, h]
      · subst h
        rcases ih ys with h2 | h2
        · left; simp [lexLe, lt_irrefl, h2]
        · right; simp [lexLe, lt_irrefl, h2]
      · right; simp [lexLe, h]

theorem lexLe_trans : ∀ a b c : List Char,
    lexLe a b = true → lexLe b c = true → lexLe a c = true := by
  intro a
  induction a with
  | nil => intro b c _ _; rfl
  | cons x xs ih =>
    intro b c hab hbc
    cases b with
    | nil => exact absurd hab (by simp [lexLe])
    | cons y ys =>
      cases c with
      | nil => exact absurd hbc (by simp [lexLe])
      | cons z zs =>
        by_cases h1 : x < y
        · by_cases h2 : y < z
          · simp [lexLe, lt_trans h1 h2]
          · by_cases h3 : y = z
            · subst h3; simp [lexLe, h1]
            · exact absurd hbc (by simp [lexLe, h2, h3])
        · by_cases h1e : x = y
          · subst h1e
            simp only [lexLe, if_neg h1, if_pos rfl] at hab
            by_cases h2 : x < z
            · simp [lexLe, h2]
            · by_cases h3 : x = z
              · subst h3
                simp only [lexLe, if_neg h2, if_pos rfl] at hbc ⊢
                exact ih ys zs hab hbc
              · exact absurd hbc (by simp [lexLe, h2, h3])
          · exact absurd hab (by simp [lexLe, h1, h1e])

theorem lexLe_antisymm : ∀ a b : List Char,
    lexLe a b = true → lexLe b a = true → a = b := by
  intro a
  induction a with
  | nil =>
    intro b _ hba
    cases b with
    | nil => rfl
    | cons y ys => exact absurd hba (by simp [lexLe])
  | cons x xs ih =>
    intro b hab hba
    cases b with
    | nil => exact absurd hab (by simp [lexLe])
    | cons y ys =>
      by_cases h1 : x < y
      · exact absurd hba (by simp [lexLe, asymm h1, (ne_of_lt h1).symm])
      · by_cases h1e : x = y
        · subst h1e
          simp only [lexLe, if_neg h1, if_pos rfl] at hab hba
          rw [ih ys hab hba]
        · exact absurd hab (by simp [lexLe, h1, h1e])

theorem rle_isTrans : IsTrans String rle :=
  ⟨fun a b c hab hbc => lexLe_trans a.data b.data c.data hab hbc⟩

theorem rle_isTotal : IsTotal String rle :=
  ⟨fun a b => lexLe_total a.data b.data⟩

theorem rle_isAntisymm : IsAntisymm String rle :=
  ⟨fun a b hab hba => by
    have h := lexLe_antisymm a.data b.data hab hba
    cases a with
    | mk la =>
      cases b with
      | mk lb => exact congrArg String.mk h⟩

/-- C8. `sort_empirical_formula` is a pure function of its input: equal
inputs give equal outputs. The only place the Rust code consults a
`HashMap`'s unspecified iteration order is when collecting the remaining
keys for sorting; the final string does not depend on that enumeration
order, since any permutation of the keys sorts to the same list. -/
theorem c8_deterministic :
    (∀ s1 s2 : String, s1 = s2 → sort_empirical_formula s1 = sort_empirical_formula s2) ∧
    (∀ (m : List (String × Nat)) (ks : List String),
      ks.Perm (m.map Prod.fst) → emit_sorted m ks = emit_sorted m (m.map Prod.fst)) := by
  constructor
  · intro s1 s2 h; rw [h]
  · intro m ks hperm
    unfold emit_sorted
    have h1 : List.insertionSort rle ks = List.insertionSort rle (m.map Prod.fst) := by
      haveI := rle_isTrans
      haveI := rle_isTotal
      exact @List.eq_of_perm_of_sorted String rle rle_isAntisymm _ _
        ((List.perm_insertionSort rle ks).trans
          (hperm.trans (List.perm_insertionSort rle _).symm))
        (List.sorted_insertionSort rle ks) (List.sorted_insertionSort rle _)
    rw [h1]

/-- Witness for C8: enumerating the totals of `{O ↦ 2, N ↦ 1}` in either
order produces the same emitted tail. -/
theorem c8_deterministic_witness :
    sort_empirical_formula "OH" = sort_empirical_formula "OH" ∧
    emit_sorted [("O", 2), ("N", 1)] ["N", "O"] =
      emit_sorted [("O", 2), ("N", 1)] ["O", "N"] :=
  ⟨c8_deterministic.1 "OH" "OH" rfl,
   c8_deterministic.2 [("O", 2), ("N", 1)] ["N", "O"] (by decide)⟩

/-! ### String append and join helpers -/

theorem str_append_empty (a : String) : a ++ "" = a := by
  cases a with
  | mk l =>
    show String.mk (l ++ []) = String.mk l
    rw [List.append_nil]

theorem str_empty_append (a : String) : "" ++ a = a := by
  cases a with
  | mk l =>
    show String.mk ([] ++ l) = String.mk l
    rw [List.nil_append]

theorem str_append_assoc (a b c : String) : a ++ b ++ c = a ++ (b ++ c) := by
  cases a with
  | mk la =>
    cases b with
    | mk lb =>
      cases c with
      | mk lc =>
        show String.mk (la ++ lb ++ lc) = String.mk (la ++ (lb ++ lc))
        rw [List.append_assoc]

theorem str_foldl_append (l : List String) :
    ∀ acc : String, l.foldl (fun r s => r ++ s) acc = acc ++ String.join l := by
  induction l with
  | nil => intro acc; exact (str_append_empty acc).symm
  | cons s l ih =>
    intro acc
    show l.foldl _ (acc ++ s) = acc ++ String.join (s :: l)
    rw [ih (acc ++ s)]
    have hjoin : String.join (s :: l) = s ++ String.join l := by
      show l.foldl _ ("" ++ s) = _
      rw [ih ("" ++ s), str_empty_append]
    rw [hjoin, str_append_assoc]

theorem str_join_cons (s : String) (l : List String) :
    String.join (s :: l) = s ++ String.join l := by
  show l.foldl _ ("" ++ s) = _
  rw [str_foldl_append l ("" ++ s), str_empty_append]

/-! ### Association-list helpers -/

theorem lookupA_isSome_iff {α : Type} : ∀ (m : List (String × α)) (k : String),
    (lookupA m k).isSome = true ↔ k ∈ m.map Prod.fst := by
  intro m k
  induction m with
  | nil => simp [lookupA]
  | cons p rest ih =>
    obtain ⟨k', v⟩ := p
    by_cases h : k' = k
    · subst h; simp [lookupA]
    · simp only [lookupA, if_neg h, List.map_cons, List.mem_cons, ih]
      constructor
      · exact Or.inr
      · rintro (h' | h')
        · exact absurd h'.symm h
        · exact h'

theorem lookupA_eq_none_iff {α : Type} (m : List (String × α)) (k : String) :
    lookupA m k = none ↔ k ∉ m.map Prod.fst := by
  rw [← lookupA_isSome_iff]
  cases lookupA m k <;> simp

theorem eraseA_not_mem {α : Type} : ∀ (m : List (String × α)) (k : String),
    k ∉ m.map Prod.fst → eraseA m k = m := by
  intro m k
  induction m with
  | nil => intro _; rfl
  | cons p rest ih =>
    obtain ⟨k', v⟩ := p
    intro h
    simp only [List.map_cons, List.mem_cons] at h
    push_neg at h
    simp only [eraseA, if_neg (fun he : k' = k => h.1 he.symm)]
    rw [ih h.2]

theorem map_fst_eraseA {α : Type} : ∀ (m : List (String × α)) (k : String),
    (eraseA m k).map Prod.fst = (m.map Prod.fst).erase k := by
  intro m k
  induction m with
  | nil => rfl
  | cons p rest ih =>
    obtain ⟨k', v⟩ := p
    by_cases h : k' = k
    · subst h
      simp [eraseA, List.erase_cons]
    · simp [eraseA, List.erase_cons, h, ih]

theorem lookupA_eraseA_ne {α : Type} : ∀ (m : List (String × α)) (k k' : String),
    k' ≠ k → lookupA (eraseA m k) k' = lookupA m k' := by
  intro m k k' hne
  induction m with
  | nil => rfl
  | cons p rest ih =>
    obtain ⟨k0, v⟩ := p
    simp only [eraseA, lookupA]
    by_cases h0 : k0 = k
    · rw [if_pos h0, if_neg (fun he : k0 = k' => hne (he.symm.trans h0))]
    · rw [if_neg h0]
      simp only [lookupA]
      by_cases h1 : k0 = k'
      · rw [if_pos h1, if_pos h1]
      · rw [if_neg h1, if_neg h1, ih]

/-- `emit_sorted` is the join of the per-key emissions over the sorted keys. -/
theorem emit_sorted_eq (m2 : List (String × Nat)) (ks : List String) :
    emit_sorted m2 ks =
      String.join ((List.insertionSort rle ks).map
        (fun k => match lookupA m2 k with
                  | some n => emitAtom k n
                  | none => "")) := by
  unfold emit_sorted
  generalize List.insertionSort rle ks = S
  have key : ∀ (S : List String) (acc : String),
      S.foldl (fun acc key =>
        match lookupA m2 key with
        | some atom_count => acc ++ emitAtom key atom_count
        | none => acc) acc
      = acc ++ String.join (S.map (fun k =>
          match lookupA m2 k with
          | some n => emitAtom k n
          | none => "")) := by
    intro S
    induction S with
    | nil => intro acc; exact (str_append_empty acc).symm
    | cons k S ih =>
      intro acc
      cases hk : lookupA m2 k with
      | none =>
        simp only [List.foldl_cons, List.map_cons, hk]
        rw [ih acc, str_join_cons, str_empty_append]
      | some n =>
        simp only [List.foldl_cons, List.map_cons, hk]
        rw [ih (acc ++ emitAtom k n), str_join_cons, str_append_assoc]
  rw [key S "", str_empty_append]

/-- Over the keys left after removing C and H, each emission looks up the
same count in the reduced map as in the original map. -/
theorem emit_tail_eq (m : List (String × Nat)) (hNodup : (m.map Prod.fst).Nodup) :
    emit_sorted (eraseA (eraseA m "C") "H") ((eraseA (eraseA m "C") "H").map Prod.fst)
      = String.join
          ((List.insertionSort rle ((eraseA (eraseA m "C") "H").map Prod.fst)).map
            (fun k => emitAtom k ((lookupA m k).getD 0))) := by
  rw [emit_sorted_eq]
  congr 1
  apply List.map_congr_left
  intro k hkS
  have hk2 : k ∈ (eraseA (eraseA m "C") "H").map Prod.fst :=
    (List.mem_insertionSort rle).mp hkS
  rw [map_fst_eraseA, map_fst_eraseA] at hk2
  have hNE1 : ((m.map Prod.fst).erase "C").Nodup := hNodup.erase "C"
  obtain ⟨hkH, hk1⟩ := (hNE1.mem_erase_iff).mp hk2
  obtain ⟨hkC, hkm⟩ := (hNodup.mem_erase_iff).mp hk1
  have hlook : lookupA (eraseA (eraseA m "C") "H") k = lookupA m k := by
    rw [lookupA_eraseA_ne _ _ _ hkH, lookupA_eraseA_ne _ _ _ hkC]
  rw [hlook]
  have hsome : (lookupA m k).isSome = true := (lookupA_isSome_iff m k).mpr hkm
  cases hv : lookupA m k with
  | none => rw [hv] at hsome; simp at hsome
  | some v => rfl

/-- The emitted key sequence is a permutation of the totals-map keys. -/
theorem hillKeys_perm (m : List (String × Nat)) (hNodup : (m.map Prod.fst).Nodup) :
    (hillKeys m).Perm (m.map Prod.fst) := by
  unfold hillKeys
  have hS : (List.insertionSort rle ((eraseA (eraseA m "C") "H").map Prod.fst)).Perm
      (((m.map Prod.fst).erase "C").erase "H") := by
    rw [map_fst_eraseA, map_fst_eraseA]
    exact List.perm_insertionSort rle _
  by_cases hC : (lookupA m "C").isSome = true
  · have hCmem : "C" ∈ m.map Prod.fst := (lookupA_isSome_iff m "C").mp hC
    rw [if_pos hC]
    by_cases hH : (lookupA m "H").isSome = true
    · have hHmem : "H" ∈ m.map Prod.fst := (lookupA_isSome_iff m "H").mp hH
      have hHmem1 : "H" ∈ (m.map Prod.fst).erase "C" :=
        (hNodup.mem_erase_iff).mpr ⟨by decide, hHmem⟩
      rw [if_pos hH]
      refine List.Perm.trans ?_ (List.perm_cons_erase hCmem).symm
      refine List.Perm.trans ?_ ((List.perm_cons_erase hHmem1).symm.cons "C")
      exact (hS.cons "H").cons "C"
    · have hHnot : "H" ∉ m.map Prod.fst := by
        rw [← lookupA_isSome_iff]
        simpa using hH
      have hHnot1 : "H" ∉ (m.map Prod.fst).erase "C" :=
        fun hmem => hHnot (List.mem_of_mem_erase hmem)
      rw [if_neg hH]
      refine List.Perm.trans ?_ (List.perm_cons_erase hCmem).symm
      refine List.Perm.trans (hS.cons "C") ?_
      rw [List.erase_of_not_mem hHnot1]
  · have hCnot : "C" ∉ m.map Prod.fst := by
      rw [← lookupA_isSome_iff]
      simpa using hC
    have hEC : (m.map Prod.fst).erase "C" = m.map Prod.fst :=
      List.erase_of_not_mem hCnot
    rw [if_neg hC]
    by_cases hH : (lookupA m "H").isSome = true
    · have hHmem : "H" ∈ m.map Prod.fst := (lookupA_isSome_iff m "H").mp hH
      rw [if_pos hH]
      refine List.Perm.trans ?_ (List.perm_cons_erase hHmem).symm
      refine List.Perm.trans (hS.cons "H") ?_
      rw [hEC]
    · have hHnot : "H" ∉ m.map Prod.fst := by
        rw [← lookupA_isSome_iff]
        simpa using hH
      rw [if_neg hH]
      refine List.Perm.trans hS ?_
      rw [hEC, List.erase_of_not_mem hHnot]

/-- The formatter's output is the join, over the emitted key sequence, of
`symbol` or `symbol ++ count` per key. -/
theorem final_formula_eq (m : List (String × Nat)) (hNodup : (m.map Prod.fst).Nodup) :
    final_formula m =
      String.join ((hillKeys m).map (fun k => emitAtom k ((lookupA m k).getD 0))) := by
  cases hC : lookupA m "C" with
  | some nC =>
    have hCs : (lookupA m "C").isSome = true := by rw [hC]; rfl
    cases hH : lookupA m "H" with
    | some nH =>
      have hH1 : lookupA (eraseA m "C") "H" = some nH := by
        rw [lookupA_eraseA_ne _ _ _ (by decide : ("H" : String) ≠ "C")]
        exact hH
      have hHs : (lookupA m "H").isSome = true := by rw [hH]; rfl
      have hhk : hillKeys m = "C" :: "H" ::
          List.insertionSort rle ((eraseA (eraseA m "C") "H").map Prod.fst) := by
        simp [hillKeys, hCs, hHs]
      unfold final_formula
      simp only [hC, hH1]
      rw [emit_tail_eq m hNodup, hhk]
      rw [List.map_cons, List.map_cons, str_join_cons, str_join_cons]
      simp only [hC, hH, Option.getD_some]
      rw [str_append_assoc]
    | none =>
      have hHnotK : "H" ∉ m.map Prod.fst := (lookupA_eq_none_iff m "H").mp hH
      have hH1 : lookupA (eraseA m "C") "H" = none := by
        rw [lookupA_eraseA_ne _ _ _ (by decide : ("H" : String) ≠ "C")]
        exact hH
      have hHs : (lookupA m "H").isSome = false := by rw [hH]; rfl
      have hM2 : eraseA (eraseA m "C") "H" = eraseA m "C" := by
        refine eraseA_not_mem _ _ ?_
        rw [map_fst_eraseA]
        exact fun hmem => hHnotK (List.mem_of_mem_erase hmem)
      have hhk : hillKeys m = "C" ::
          List.insertionSort rle ((eraseA (eraseA m "C") "H").map Prod.fst) := by
        simp [hillKeys, hCs, hHs]
      unfold final_formula
      simp only [hC, hH1]
      rw [show eraseA m "C" = eraseA (eraseA m "C") "H" from hM2.symm]
      rw [emit_tail_eq m hNodup, hhk]
      rw [List.map_cons, str_join_cons]
      simp only [hC, Option.getD_some]
  | none =>
    have hCnotK : "C" ∉ m.map Prod.fst := (lookupA_eq_none_iff m "C").mp hC
    have hCs : (lookupA m "C").isSome = false := by rw [hC]; rfl
    have hM1 : eraseA m "C" = m := eraseA_not_mem _ _ hCnotK
    cases hH : lookupA m "H" with
    | some nH =>
      have hHs : (lookupA m "H").isSome = true := by rw [hH]; rfl
      have hhk : hillKeys m = "H" ::
          List.insertionSort rle ((eraseA (eraseA m "C") "H").map Prod.fst) := by
        simp [hillKeys, hCs, hHs]
      unfold final_formula
      simp only [hC, hH]
      rw [show eraseA m "H" = eraseA (eraseA m "C") "H" by rw [hM1]]
      rw [emit_tail_eq m hNodup, hhk]
      rw [List.map_cons, str_join_cons]
      simp only [hH, Option.getD_some]
      rw [str_empty_append]
    | none =>
      have hHnotK : "H" ∉ m.map Prod.fst := (lookupA_eq_none_iff m "H").mp hH
      have hHs : (lookupA m "H").isSome = false := by rw [hH]; rfl
      have hM2 : eraseA (eraseA m "C") "H" = m := by
        rw [hM1]
        exact eraseA_not_mem _ _ hHnotK
      have hhk : hillKeys m =
          List.insertionSort rle ((eraseA (eraseA m "C") "H").map Prod.fst) := by
        simp [hillKeys, hCs, hHs]
      unfold final_formula
      simp only [hC, hH]
      rw [show emit_sorted m (m.map Prod.fst)
            = emit_sorted (eraseA (eraseA m "C") "H")
                ((eraseA (eraseA m "C") "H").map Prod.fst) by rw [hM2]]
      rw [emit_tail_eq m hNodup, hhk, str_empty_append]

/-- C7. The canonical formatter emits C first (count elided when 1), then
H, then every remaining symbol in strictly increasing lexicographic order,
concatenated with no separators; the emitted symbol sequence contains each
distinct symbol of the totals map exactly once. In particular
`sort_empirical_formula "O2H4C1"` returns `Ok "CH4O2"`. -/
theorem c7_formatter :
    (∀ m : List (String × Nat), (m.map Prod.fst).Nodup →
      final_formula m =
        String.join ((hillKeys m).map (fun k => emitAtom k ((lookupA m k).getD 0))) ∧
      (hillKeys m).Nodup ∧ (hillKeys m).Perm (m.map Prod.fst)) ∧
    sort_empirical_formula "O2H4C1" = .Ok "CH4O2" := by
  constructor
  · intro m hNodup
    exact ⟨final_formula_eq m hNodup,
      ((hillKeys_perm m hNodup).symm).nodup hNodup,
      hillKeys_perm m hNodup⟩
  · decide

/-- Witness for C7: the totals map of `"O2H4C1"` formats to `"CH4O2"`, the
emitted keys are C, H, O — each exactly once. -/
theorem c7_formatter_witness :
    final_formula [("O", 2), ("H", 4), ("C", 1)] =
      String.join ((hillKeys [("O", 2), ("H", 4), ("C", 1)]).map
        (fun k => emitAtom k ((lookupA [("O", 2), ("H", 4), ("C", 1)] k).getD 0))) ∧
    (hillKeys [("O", 2), ("H", 4), ("C", 1)]).Nodup ∧
    (hillKeys [("O", 2), ("H", 4), ("C", 1)]).Perm
      (([("O", 2), ("H", 4), ("C", 1)] : List (String × Nat)).map Prod.fst) :=
  (c7_formatter.1 [("O", 2), ("H", 4), ("C", 1)] (by decide))

/-! ### Scanning a canonical formula (C2) -/

theorem lexLt_le : ∀ a b : List Char, lexLt a b = true → lexLe a b = true := by
  intro a
  induction a with
  | nil => intro b _; rfl
  | cons x xs ih =>
    intro b h
    cases b with
    | nil => exact absurd h (by simp [lexLt])
    | cons y ys =>
      by_cases h1 : x < y
      · simp [lexLe, h1]
      · by_cases h2 : x = y
        · subst h2
          simp only [lexLt, if_neg h1, if_pos rfl] at h
          simp only [lexLe, if_neg h1, if_pos rfl]
          exact ih ys h
        · exact absurd h (by simp [lexLt, h1, h2])

theorem lexLt_irrefl : ∀ a : List Char, lexLt a a = false := by
  intro a
  induction a with
  | nil => rfl
  | cons x xs ih => simp [lexLt, lt_irrefl, ih]

theorem lexLt_trans : ∀ a b c : List Char,
    lexLt a b = true → lexLt b c = true → lexLt a c = true := by
  intro a
  induction a with
  | nil =>
    intro b c hab hbc
    cases b with
    | nil => exact absurd hab (by simp [lexLt])
    | cons y ys =>
      cases c with
      | nil => exact absurd hbc (by simp [lexLt])
      | cons z zs => rfl
  | cons x xs ih =>
    intro b c hab hbc
    cases b with
    | nil => exact absurd hab (by simp [lexLt])
    | cons y ys =>
      cases c with
      | nil => exact absurd hbc (by simp [lexLt])
      | cons z zs =>
        by_cases h1 : x < y
        · by_cases h2 : y < z
          · simp [lexLt, lt_trans h1 h2]
          · by_cases h3 : y = z
            · subst h3; simp [lexLt, h1]
            · exact absurd hbc (by simp [lexLt, h2, h3])
        · by_cases h1e : x = y
          · subst h1e
            simp only [lexLt, if_neg h1, if_pos rfl] at hab
            by_cases h2 : x < z
            · simp [lexLt, h2]
            · by_cases h3 : x = z
              · subst h3
                simp only [lexLt, if_neg h2, if_pos rfl] at hbc ⊢
                exact ih ys zs hab hbc
              · exact absurd hbc (by simp [lexLt, h2, h3])
          · exact absurd hab (by simp [lexLt, h1, h1e])

theorem strLtB_ne {a b : String} (h : strLtB a b = true) : a ≠ b := by
  intro he
  subst he
  rw [strLtB, lexLt_irrefl] at h
  cases h

/-- The decimal rendering of a count in 2..9 is one digit character. -/
theorem repr_lt10 : ∀ n : Nat, n < 10 → 2 ≤ n →
    (Nat.repr n).data = [Char.ofNat (48 + n)] := by decide

/-- The decimal rendering of a count in 10..99 is two digit characters. -/
theorem repr_lt100 : ∀ n : Nat, n < 100 → 10 ≤ n →
    (Nat.repr n).data = [Char.ofNat (48 + n / 10), Char.ofNat (48 + n % 10)] := by
  decide

/-- The character of a decimal digit is an ASCII digit with that value. -/
theorem digitChar_facts : ∀ k : Nat, k < 10 →
    isAsciiDigit (Char.ofNat (48 + k)) = true ∧ digitVal (Char.ofNat (48 + k)) = k := by
  decide

/-- Every periodic-table key is one uppercase letter, optionally followed by
one lowercase letter. -/
theorem pt_keys_shape : ∀ p ∈ periodic_table, symShape p.1 = true := by decide

theorem str_data_append (a b : String) : (a ++ b).data = a.data ++ b.data := by
  cases a with
  | mk la =>
    cases b with
    | mk lb => rfl

theorem str_mk_data (s : String) : String.mk s.data = s := by
  cases s with
  | mk l => rfl

theorem ptContains_shape (s : String) (h : ptContains s = true) : symShape s = true := by
  have hmem : s ∈ periodic_table.map Prod.fst := (lookupA_isSome_iff _ s).mp h
  obtain ⟨p, hp, hps⟩ := List.mem_map.mp hmem
  exact hps ▸ pt_keys_shape p hp

theorem symShape_cases (s : String) (h : symShape s = true) :
    (∃ u, s.data = [u] ∧ isAsciiUpper u = true) ∨
    (∃ u l, s.data = [u, l] ∧ isAsciiUpper u = true ∧ isAsciiLower l = true) := by
  cases hd : s.data with
  | nil =>
    simp only [symShape, hd] at h
    exact Bool.noConfusion h
  | cons u rest =>
    cases rest with
    | nil =>
      simp only [symShape, hd] at h
      exact Or.inl ⟨u, rfl, h⟩
    | cons l rest2 =>
      cases rest2 with
      | nil =>
        simp only [symShape, hd, Bool.and_eq_true] at h
        exact Or.inr ⟨u, l, rfl, h.1, h.2⟩
      | cons x rest3 =>
        simp only [symShape, hd] at h
        exact Bool.noConfusion h

/-- A rendered canonical formula starts with an uppercase letter when it is
nonempty. -/
theorem render_head_upper : ∀ (es : List Entry), (∀ e ∈ es, entryOk99 e = true) →
    ∀ c, ((renderFormula es).data).head? = some c → isAsciiUpper c = true := by
  intro es hok c hc
  cases es with
  | nil => cases hc
  | cons e rest =>
    have hpt : ptContains e.sym = true := by
      have h := hok e (List.mem_cons_self e rest)
      simp only [entryOk99, Bool.and_eq_true] at h
      exact h.1.1
    have hshape := symShape_cases e.sym (ptContains_shape e.sym hpt)
    have hdata : (renderFormula (e :: rest)).data
        = e.sym.data ++ ((if e.cnt = 1 then "" else Nat.repr e.cnt).data
            ++ (renderFormula rest).data) := by
      show (renderEntry e ++ renderFormula rest).data = _
      rw [str_data_append, renderEntry, str_data_append, List.append_assoc]
    rcases hshape with ⟨u, hu, hup⟩ | ⟨u, l, hu, hup, -⟩ <;>
      rw [hdata, hu] at hc <;> exact (Option.some.inj hc) ▸ hup

theorem renderFormula_append : ∀ a b : List Entry,
    renderFormula (a ++ b) = renderFormula a ++ renderFormula b := by
  intro a b
  induction a with
  | nil => exact (str_empty_append _).symm
  | cons e a ih =>
    show renderEntry e ++ renderFormula (a ++ b) = renderEntry e ++ renderFormula a ++ _
    rw [ih, str_append_assoc]

theorem renderFormula_join : ∀ es : List Entry,
    renderFormula es = String.join (es.map renderEntry) := by
  intro es
  induction es with
  | nil => rfl
  | cons e es ih =>
    show renderEntry e ++ renderFormula es = _
    rw [ih, List.map_cons, str_join_cons]

theorem emitAtom_renderEntry (e : Entry) : emitAtom e.sym e.cnt = renderEntry e := by
  unfold emitAtom renderEntry
  by_cases h : e.cnt = 1
  · rw [if_pos h, if_pos h, str_append_empty]
  · rw [if_neg h, if_neg h]

/-- Scanning the rendered count of an entry overrides the count of the atom
block just pushed, then continues into the remaining input. -/
theorem scan_count (cnt : Nat) (h1 : 1 ≤ cnt) (h99 : cnt ≤ 99) (u : Char)
    (hu : isAsciiUpper u = true) (tail : List Char)
    (htail : ∀ c, tail.head? = some c → isAsciiUpper c = true)
    (d : Int) (nm : String) (bs : List AtomBlock) :
    ∃ p : Char, scanFormula ((if cnt = 1 then "" else Nat.repr cnt).data ++ tail)
        (some u) d (⟨nm, d, 1⟩ :: bs)
      = scanFormula tail (some p) d (⟨nm, d, cnt⟩ :: bs) := by
  have hprev : ¬((some u : Option Char) = some ')' ∨ (some u : Option Char) = some ']') := by
    obtain ⟨-, -, h3, h4, -, -, -⟩ := upper_char_props hu
    rintro (h | h)
    · exact h3 (Option.some.inj h)
    · exact h4 (Option.some.inj h)
  have hptc : prevTakesCount (some u) = true := by
    simp [prevTakesCount, hu]
  by_cases hc1 : cnt = 1
  · subst hc1
    rw [if_pos rfl]
    exact ⟨u, rfl⟩
  · by_cases hc10 : cnt < 10
    · have h2 : 2 ≤ cnt := by omega
      rw [if_neg hc1, repr_lt10 cnt hc10 h2]
      obtain ⟨hdig, hval⟩ := digitChar_facts cnt hc10
      have hlen : numLen tail.head? = 1 := by
        cases ht : tail.head? with
        | none => rfl
        | some c2 =>
          have hup2 := htail c2 ht
          simp [numLen, (upper_char_props hup2).2.2.2.2.1]
      have hv : numVal (Char.ofNat (48 + cnt)) tail.head? = cnt := by
        cases ht : tail.head? with
        | none => simpa [numVal] using hval
        | some c2 =>
          have hup2 := htail c2 ht
          simp [numVal, (upper_char_props hup2).2.2.2.2.1, hval]
      refine ⟨Char.ofNat (48 + cnt), ?_⟩
      rw [List.singleton_append, scanFormula_cons,
        scanStep_digit_atom hdig hprev hptc]
      simp only [hlen, hv]
      rfl
    · have h10 : 10 ≤ cnt := by omega
      have hlt : cnt < 100 := by omega
      rw [if_neg hc1, repr_lt100 cnt hlt h10]
      obtain ⟨hd1, hv1⟩ := digitChar_facts (cnt / 10) (by omega)
      obtain ⟨hd2, hv2⟩ := digitChar_facts (cnt % 10) (by omega)
      refine ⟨Char.ofNat (48 + cnt / 10), ?_⟩
      rw [show ([Char.ofNat (48 + cnt / 10), Char.ofNat (48 + cnt % 10)] ++ tail)
            = Char.ofNat (48 + cnt / 10) :: Char.ofNat (48 + cnt % 10) :: tail from rfl]
      rw [scanFormula_cons]
      simp only [List.head?_cons, List.tail_cons]
      rw [scanStep_digit_atom hd1 hprev hptc]
      have hlen : numLen (some (Char.ofNat (48 + cnt % 10))) = 2 := by
        simp [numLen, hd2]
      have hv : numVal (Char.ofNat (48 + cnt / 10))
          (some (Char.ofNat (48 + cnt % 10))) = cnt := by
        simp only [numVal, hd2, eq_self_iff_true, if_true, hv1, hv2]
        omega
      simp only [hlen, hv, if_true]

/-- Scanning one rendered entry pushes exactly its atom block (symbol, the
current depth, its count) and continues into the remaining input. -/
theorem scan_entry (e : Entry) (he : entryOk99 e = true) (tail : List Char)
    (htail : ∀ c, tail.head? = some c → isAsciiUpper c = true)
    (prev : Option Char) (d : Int) (bs : List AtomBlock) :
    ∃ p : Char, scanFormula ((renderEntry e).data ++ tail) prev d bs
      = scanFormula tail (some p) d (⟨e.sym, d, e.cnt⟩ :: bs) := by
  have hparts : ptContains e.sym = true ∧ 1 ≤ e.cnt ∧ e.cnt ≤ 99 := by
    simpa [entryOk99, Bool.and_eq_true, and_assoc] using he
  obtain ⟨hpt, h1, h99⟩ := hparts
  have hdata : (renderEntry e).data ++ tail
      = e.sym.data ++ ((if e.cnt = 1 then "" else Nat.repr e.cnt).data ++ tail) := by
    rw [renderEntry, str_data_append, List.append_assoc]
  rw [hdata]
  have hcnt_head : ∀ l,
      ((if e.cnt = 1 then "" else Nat.repr e.cnt).data ++ tail).head? = some l →
      isAsciiLower l = false := by
    intro l hl
    by_cases hc1 : e.cnt = 1
    · rw [if_pos hc1] at hl
      exact (upper_char_props (htail l hl)).2.2.2.2.2.1
    · rw [if_neg hc1] at hl
      by_cases hc10 : e.cnt < 10
      · rw [repr_lt10 e.cnt hc10 (by omega)] at hl
        rw [List.singleton_append, List.head?_cons] at hl
        obtain ⟨hdig, -⟩ := digitChar_facts e.cnt hc10
        rw [← Option.some.inj hl]
        exact (digit_char_props hdig).2.2.2.2.2
      · rw [repr_lt100 e.cnt (by omega) (by omega)] at hl
        rw [show ([Char.ofNat (48 + e.cnt / 10), Char.ofNat (48 + e.cnt % 10)] ++ tail)
              = Char.ofNat (48 + e.cnt / 10) :: Char.ofNat (48 + e.cnt % 10) :: tail
            from rfl, List.head?_cons] at hl
        obtain ⟨hdig, -⟩ := digitChar_facts (e.cnt / 10) (by omega)
        rw [← Option.some.inj hl]
        exact (digit_char_props hdig).2.2.2.2.2
  rcases symShape_cases e.sym (ptContains_shape e.sym hpt) with
    ⟨u, hsymd, hup⟩ | ⟨u, l, hsymd, hup, hlow⟩
  · have hsym : (⟨[u]⟩ : String) = e.sym := by rw [← str_mk_data e.sym, hsymd]
    rw [hsymd, List.singleton_append, scanFormula_cons]
    have hstep : scanStep u (((if e.cnt = 1 then "" else Nat.repr e.cnt).data ++ tail).head?)
        d prev bs = .Ok (1, d, ⟨e.sym, d, 1⟩ :: bs) := by
      have hn : ((if e.cnt = 1 then "" else Nat.repr e.cnt).data ++ tail).head? = none ∨
          ∃ c2, ((if e.cnt = 1 then "" else Nat.repr e.cnt).data ++ tail).head? = some c2 ∧
            isAsciiLower c2 = false := by
        cases hh : ((if e.cnt = 1 then "" else Nat.repr e.cnt).data ++ tail).head? with
        | none => exact Or.inl rfl
        | some c2 => exact Or.inr ⟨c2, rfl, hcnt_head c2 hh⟩
      rw [scanStep_upper_one hup hn, hsym, if_pos hpt]
    rw [hstep]
    exact scan_count e.cnt h1 h99 u hup tail htail d e.sym bs
  · have hsym : (⟨[u, l]⟩ : String) = e.sym := by rw [← str_mk_data e.sym, hsymd]
    rw [hsymd]
    rw [show ([u, l] ++ ((if e.cnt = 1 then "" else Nat.repr e.cnt).data ++ tail))
          = u :: l :: ((if e.cnt = 1 then "" else Nat.repr e.cnt).data ++ tail) from rfl]
    rw [scanFormula_cons]
    simp only [List.head?_cons, List.tail_cons]
    rw [scanStep_upper_two hup hlow, hsym, if_pos hpt]
    exact scan_count e.cnt h1 h99 u hup tail htail d e.sym bs

/-- Scanning a whole rendered canonical formula accumulates exactly its
entries as depth-d blocks (newest first), leaving the depth unchanged. -/
theorem scan_render : ∀ (es : List Entry), (∀ e ∈ es, entryOk99 e = true) →
    ∀ (prev : Option Char) (d : Int) (bs : List AtomBlock),
    scanFormula ((renderFormula es).data) prev d bs
      = .Ok ((es.map (fun e => (⟨e.sym, d, e.cnt⟩ : AtomBlock))).reverse ++ bs, d) := by
  intro es
  induction es with
  | nil =>
    intro _ _ _ _
    show scanFormula [] _ _ _ = _
    simp [scanFormula]
  | cons e es ih =>
    intro hok prev d bs
    rw [show (renderFormula (e :: es)).data
          = (renderEntry e).data ++ (renderFormula es).data from by
        show (renderEntry e ++ renderFormula es).data = _
        rw [str_data_append]]
    obtain ⟨p, hp⟩ := scan_entry e (hok e (List.mem_cons_self e es))
      ((renderFormula es).data)
      (render_head_upper es (fun e' he' => hok e' (List.mem_cons_of_mem _ he')))
      prev d bs
    rw [hp, ih (fun e' he' => hok e' (List.mem_cons_of_mem _ he')) (some p) d
      (⟨e.sym, d, e.cnt⟩ :: bs)]
    rw [List.map_cons, List.reverse_cons, List.append_assoc]
    rfl

/-- Aggregating blocks whose names are fresh for the accumulator and
mutually distinct just appends their pairs. -/
theorem aggAux_fresh : ∀ (bs : List AtomBlock) (acc : List (String × Nat)),
    (∀ b ∈ bs, b.atom_name ∉ acc.map Prod.fst) →
    (bs.map AtomBlock.atom_name).Nodup →
    aggAux acc bs = .Ok (acc ++ bs.map (fun b => (b.atom_name, b.count))) := by
  intro bs
  induction bs with
  | nil =>
    intro acc _ _
    simp [aggAux]
  | cons b rest ih =>
    intro acc hfresh hnd
    simp only [List.map_cons] at hnd
    have hnone : lookupA acc b.atom_name = none :=
      (lookupA_eq_none_iff acc b.atom_name).mpr (hfresh b (List.mem_cons_self b rest))
    have hc : containsKeyA acc b.atom_name = false := by
      rw [containsKeyA, hnone]
      rfl
    unfold aggAux
    rw [if_neg (by simp [hc])]
    rw [ih (acc ++ [(b.atom_name, b.count)]) ?_ (List.nodup_cons.mp hnd).2]
    · rw [List.map_cons, List.append_assoc]
      rfl
    · intro b' hb' hmem
      rw [List.map_append, List.mem_append] at hmem
      rcases hmem with h | h
      · exact hfresh b' (List.mem_cons_of_mem _ hb') h
      · simp only [List.map_cons, List.map_nil, List.mem_singleton] at h
        exact (List.nodup_cons.mp hnd).1
          (h ▸ List.mem_map_of_mem AtomBlock.atom_name hb')

/-- Aggregating the blocks of distinct-symbol entries yields exactly their
symbol/count pairs, in order. -/
theorem aggregate_entries (es : List Entry) (hnd : (es.map Entry.sym).Nodup) :
    aggregate (es.map (fun e => (⟨e.sym, 0, e.cnt⟩ : AtomBlock))) =
      .Ok (es.map (fun e => (e.sym, e.cnt))) := by
  unfold aggregate
  have hmapname : (es.map (fun e => (⟨e.sym, 0, e.cnt⟩ : AtomBlock))).map AtomBlock.atom_name
      = es.map Entry.sym := by
    rw [List.map_map]
    rfl
  rw [aggAux_fresh _ [] (by simp) (by rw [hmapname]; exact hnd)]
  rw [List.nil_append, List.map_map]
  rfl

/-- The tail of a canonical formula: every symbol differs from C and H, and
consecutive symbols strictly increase. -/
theorem tailOk_props : ∀ ts : List Entry, tailOk ts = true →
    (∀ e ∈ ts, e.sym ≠ "C" ∧ e.sym ≠ "H") ∧
    List.Chain' (fun a b : String => strLtB a b = true) (ts.map Entry.sym) := by
  intro ts
  induction ts with
  | nil =>
    intro _
    exact ⟨by simp, List.chain'_nil⟩
  | cons e rest ih =>
    intro h
    cases rest with
    | nil =>
      simp only [tailOk, Bool.and_eq_true, Bool.not_eq_true', beq_eq_false_iff_ne] at h
      refine ⟨?_, ?_⟩
      · intro e' he'
        rcases List.mem_cons.mp he' with rfl | he'
        · exact h
        · cases he'
      · exact List.chain'_singleton _
    | cons e2 rest2 =>
      simp only [tailOk, Bool.and_eq_true, Bool.not_eq_true', beq_eq_false_iff_ne] at h
      obtain ⟨⟨⟨hC, hH⟩, hlt⟩, htl⟩ := h
      obtain ⟨ihall, ihchain⟩ := ih htl
      refine ⟨?_, ?_⟩
      · intro e' he'
        rcases List.mem_cons.mp he' with rfl | he'
        · exact ⟨hC, hH⟩
        · exact ihall e' he'
      · rw [List.map_cons, List.map_cons, List.chain'_cons]
        exact ⟨hlt, by simpa using ihchain⟩

theorem strict_isTrans : IsTrans String (fun a b : String => strLtB a b = true) :=
  ⟨fun a b c hab hbc => lexLt_trans a.data b.data c.data hab hbc⟩

theorem tail_pairwise (ts : List Entry) (hts : tailOk ts = true) :
    List.Pairwise (fun a b : String => strLtB a b = true) (ts.map Entry.sym) := by
  haveI := strict_isTrans
  exact List.chain'_iff_pairwise.mp (tailOk_props ts hts).2

theorem tail_syms_nodup (ts : List Entry) (hts : tailOk ts = true) :
    (ts.map Entry.sym).Nodup :=
  (tail_pairwise ts hts).imp (fun h => strLtB_ne h)

theorem tail_sorted (ts : List Entry) (hts : tailOk ts = true) :
    List.Sorted rle (ts.map Entry.sym) :=
  (tail_pairwise ts hts).imp (fun h => lexLt_le _ _ h)

theorem lookupA_pair_self : ∀ (ts : List Entry), (ts.map Entry.sym).Nodup →
    ∀ e ∈ ts, lookupA (ts.map (fun e => (e.sym, e.cnt))) e.sym = some e.cnt := by
  intro ts
  induction ts with
  | nil =>
    intro _ e he
    cases he
  | cons e0 rest ih =>
    intro hnd e he
    simp only [List.map_cons] at hnd
    rcases List.mem_cons.mp he with rfl | he'
    · simp [lookupA]
    · have hne : e0.sym ≠ e.sym := by
        intro hEq
        exact (List.nodup_cons.mp hnd).1 (hEq ▸ List.mem_map_of_mem Entry.sym he')
      simp only [List.map_cons, lookupA, if_neg hne]
      exact ih (List.nodup_cons.mp hnd).2 e he'

/-- Emitting the sorted tail of a canonical formula reproduces its rendered
text. -/
theorem emit_tail_render (ts : List Entry) (hts : tailOk ts = true) :
    emit_sorted (ts.map (fun e => (e.sym, e.cnt)))
        ((ts.map (fun e => (e.sym, e.cnt))).map Prod.fst)
      = renderFormula ts := by
  have hkeys : (ts.map (fun e => (e.sym, e.cnt))).map Prod.fst = ts.map Entry.sym := by
    rw [List.map_map]
    rfl
  rw [emit_sorted_eq, hkeys, (tail_sorted ts hts).insertionSort_eq]
  rw [List.map_map, renderFormula_join]
  congr 1
  apply List.map_congr_left
  intro e he
  show (match lookupA (ts.map (fun e => (e.sym, e.cnt))) e.sym with
        | some n => emitAtom e.sym n
        | none => "") = renderEntry e
  rw [lookupA_pair_self ts (tail_syms_nodup ts hts) e he]
  exact emitAtom_renderEntry e

/-- A canonical entry list splits into an optional C entry, an optional H
entry, and a well-formed tail. -/
theorem canonical_decomp (es : List Entry) (hhill : tailOk (afterH (afterC es)) = true) :
    ∃ copt hopt ts : List Entry,
      es = copt ++ (hopt ++ ts) ∧
      (copt = [] ∨ ∃ n, copt = [⟨"C", n⟩]) ∧
      (hopt = [] ∨ ∃ n, hopt = [⟨"H", n⟩]) ∧
      tailOk ts = true := by
  cases es with
  | nil => exact ⟨[], [], [], rfl, Or.inl rfl, Or.inl rfl, rfl⟩
  | cons e rest =>
    by_cases hC : e.sym = "C"
    · have heC : e = (⟨"C", e.cnt⟩ : Entry) := by
        cases e with
        | mk s c => exact congrArg (fun x => Entry.mk x c) hC
      have hac : afterC (e :: rest) = rest := by simp [afterC, hC]
      rw [hac] at hhill
      cases rest with
      | nil =>
        exact ⟨[e], [], [], rfl, Or.inr ⟨e.cnt, by rw [heC]⟩, Or.inl rfl, rfl⟩
      | cons e2 rest2 =>
        by_cases hH : e2.sym = "H"
        · have heH : e2 = (⟨"H", e2.cnt⟩ : Entry) := by
            cases e2 with
            | mk s c => exact congrArg (fun x => Entry.mk x c) hH
          have hah : afterH (e2 :: rest2) = rest2 := by simp [afterH, hH]
          rw [hah] at hhill
          exact ⟨[e], [e2], rest2, rfl, Or.inr ⟨e.cnt, by rw [heC]⟩,
            Or.inr ⟨e2.cnt, by rw [heH]⟩, hhill⟩
        · have hah : afterH (e2 :: rest2) = e2 :: rest2 := by simp [afterH, hH]
          rw [hah] at hhill
          exact ⟨[e], [], e2 :: rest2, rfl, Or.inr ⟨e.cnt, by rw [heC]⟩,
            Or.inl rfl, hhill⟩
    · have hac : afterC (e :: rest) = e :: rest := by simp [afterC, hC]
      rw [hac] at hhill
      by_cases hH : e.sym = "H"
      · have heH : e = (⟨"H", e.cnt⟩ : Entry) := by
          cases e with
          | mk s c => exact congrArg (fun x => Entry.mk x c) hH
        have hah : afterH (e :: rest) = rest := by simp [afterH, hH]
        rw [hah] at hhill
        exact ⟨[], [e], rest, rfl, Or.inl rfl, Or.inr ⟨e.cnt, by rw [heH]⟩, hhill⟩
      · have hah : afterH (e :: rest) = e :: rest := by simp [afterH, hH]
        rw [hah] at hhill
        exact ⟨[], [], e :: rest, rfl, Or.inl rfl, Or.inl rfl, hhill⟩

theorem tail_not_memC (ts : List Entry) (hts : tailOk ts = true) :
    "C" ∉ ts.map Entry.sym := by
  intro hmem
  obtain ⟨e', he', hs⟩ := List.mem_map.mp hmem
  exact ((tailOk_props ts hts).1 e' he').1 hs

theorem tail_not_memH (ts : List Entry) (hts : tailOk ts = true) :
    "H" ∉ ts.map Entry.sym := by
  intro hmem
  obtain ⟨e', he', hs⟩ := List.mem_map.mp hmem
  exact ((tailOk_props ts hts).1 e' he').2 hs

/-- The symbols of a canonical entry list are pairwise distinct. -/
theorem canonical_syms_nodup (es : List Entry)
    (hhill : tailOk (afterH (afterC es)) = true) : (es.map Entry.sym).Nodup := by
  obtain ⟨copt, hopt, ts, heq, hcopt, hhopt, hts⟩ := canonical_decomp es hhill
  subst heq
  have hndts := tail_syms_nodup ts hts
  have hCnot := tail_not_memC ts hts
  have hHnot := tail_not_memH ts hts
  rcases hcopt with rfl | ⟨nC, rfl⟩ <;> rcases hhopt with rfl | ⟨nH, rfl⟩
  · simpa using hndts
  · simp only [List.nil_append, List.map_append, List.map_cons, List.map_nil,
      List.singleton_append, List.nodup_cons]
    exact ⟨hHnot, hndts⟩
  · simp only [List.map_append, List.map_cons, List.map_nil, List.nil_append,
      List.singleton_append, List.nodup_cons]
    exact ⟨hCnot, hndts⟩
  · simp only [List.map_append, List.map_cons, List.map_nil,
      List.singleton_append, List.nodup_cons, List.mem_cons]
    refine ⟨?_, hHnot, hndts⟩
    rintro (h | h)
    · exact absurd h (by decide)
    · exact hCnot h

/-- The formatter maps the totals of a canonical entry list back to its
rendered text. -/
theorem format_canonical (es : List Entry)
    (hhill : tailOk (afterH (afterC es)) = true) :
    final_formula (es.map (fun e => (e.sym, e.cnt))) = renderFormula es := by
  obtain ⟨copt, hopt, ts, heq, hcopt, hhopt, hts⟩ := canonical_decomp es hhill
  subst heq
  have hCnot := tail_not_memC ts hts
  have hHnot := tail_not_memH ts hts
  have hkeys : (ts.map (fun e => (e.sym, e.cnt))).map Prod.fst = ts.map Entry.sym := by
    rw [List.map_map]
    rfl
  have hCnone : lookupA (ts.map (fun e => (e.sym, e.cnt))) "C" = none :=
    (lookupA_eq_none_iff _ _).mpr (by rw [hkeys]; exact hCnot)
  have hHnone : lookupA (ts.map (fun e => (e.sym, e.cnt))) "H" = none :=
    (lookupA_eq_none_iff _ _).mpr (by rw [hkeys]; exact hHnot)
  rcases hcopt with rfl | ⟨nC, rfl⟩ <;> rcases hhopt with rfl | ⟨nH, rfl⟩
  · -- no C, no H
    simp only [List.nil_append]
    unfold final_formula
    simp only [hCnone, hHnone]
    rw [emit_tail_render ts hts, str_empty_append]
  · -- no C, H present
    simp only [List.nil_append, List.singleton_append, List.map_cons]
    have hCnone2 : lookupA ((("H", nH) : String × Nat) :: ts.map (fun e => (e.sym, e.cnt))) "C"
        = none := by
      simp only [lookupA, if_neg (by decide : ¬("H" : String) = "C")]
      exact hCnone
    unfold final_formula
    simp only [hCnone2]
    simp only [show lookupA ((("H", nH) : String × Nat) :: ts.map (fun e => (e.sym, e.cnt))) "H"
          = some nH from by simp [lookupA]]
    simp only [show eraseA ((("H", nH) : String × Nat) :: ts.map (fun e => (e.sym, e.cnt))) "H"
          = ts.map (fun e => (e.sym, e.cnt)) from by simp [eraseA]]
    rw [emit_tail_render ts hts]
    show ("" ++ emitAtom "H" nH) ++ renderFormula ts = renderFormula (⟨"H", nH⟩ :: ts)
    rw [str_empty_append, renderFormula, show renderEntry ⟨"H", nH⟩ = emitAtom "H" nH from
      (emitAtom_renderEntry ⟨"H", nH⟩).symm]
  · -- C present, no H
    simp only [List.singleton_append, List.nil_append, List.map_cons]
    unfold final_formula
    simp only [show lookupA ((("C", nC) : String × Nat) :: ts.map (fun e => (e.sym, e.cnt))) "C"
          = some nC from by simp [lookupA]]
    simp only [show eraseA ((("C", nC) : String × Nat) :: ts.map (fun e => (e.sym, e.cnt))) "C"
          = ts.map (fun e => (e.sym, e.cnt)) from by simp [eraseA]]
    simp only [hHnone]
    rw [emit_tail_render ts hts]
    show emitAtom "C" nC ++ renderFormula ts = renderFormula (⟨"C", nC⟩ :: ts)
    rw [renderFormula, show renderEntry ⟨"C", nC⟩ = emitAtom "C" nC from
      (emitAtom_renderEntry ⟨"C", nC⟩).symm]
  · -- C and H present
    simp only [List.singleton_append, List.cons_append, List.nil_append, List.map_cons]
    unfold final_formula
    simp only [show lookupA ((("C", nC) : String × Nat) :: ("H", nH)
            :: ts.map (fun e => (e.sym, e.cnt))) "C" = some nC from by simp [lookupA]]
    simp only [show eraseA ((("C", nC) : String × Nat) :: ("H", nH)
            :: ts.map (fun e => (e.sym, e.cnt))) "C"
          = (("H", nH) : String × Nat) :: ts.map (fun e => (e.sym, e.cnt)) from by
        simp [eraseA]]
    simp only [show lookupA ((("H", nH) : String × Nat) :: ts.map (fun e => (e.sym, e.cnt))) "H"
          = some nH from by simp [lookupA]]
    simp only [show eraseA ((("H", nH) : String × Nat) :: ts.map (fun e => (e.sym, e.cnt))) "H"
          = ts.map (fun e => (e.sym, e.cnt)) from by simp [eraseA]]
    rw [emit_tail_render ts hts]
    show (emitAtom "C" nC ++ emitAtom "H" nH) ++ renderFormula ts
        = renderFormula (⟨"C", nC⟩ :: ⟨"H", nH⟩ :: ts)
    rw [str_append_assoc, renderFormula, renderFormula,
      show renderEntry ⟨"C", nC⟩ = emitAtom "C" nC from (emitAtom_renderEntry ⟨"C", nC⟩).symm,
      show renderEntry ⟨"H", nH⟩ = emitAtom "H" nH from (emitAtom_renderEntry ⟨"H", nH⟩).symm]

/-- C2 (amended). For every canonical formula — Hill-ordered, bracket-free,
every symbol in the periodic table, every count between 1 and 99 (counts of
1 elided) — the function returns the input unchanged. The bound 99 is
forced: the scanner reads at most two consecutive digits. -/
theorem c2_amended (es : List Entry) (hcan : isCanonicalWith entryOk99 es = true) :
    sort_empirical_formula (renderFormula es) = .Ok (renderFormula es) := by
  have hparts : es.all entryOk99 = true ∧ tailOk (afterH (afterC es)) = true := by
    simpa [isCanonicalWith, Bool.and_eq_true] using hcan
  obtain ⟨hall, hhill⟩ := hparts
  have hallm : ∀ e ∈ es, entryOk99 e = true := by
    intro e he
    exact List.all_eq_true.mp hall e he
  unfold sort_empirical_formula
  rw [scan_render es hallm none 0 []]
  simp only [List.append_nil, List.reverse_reverse]
  simp only [aggregate_entries es (canonical_syms_nodup es hhill)]
  rw [format_canonical es hhill]

/-- C2. The claim as stated has no bound on counts, but the scanner reads
at most two consecutive digits, so a canonical formula with a three-digit
count does not round-trip: `"C100"` — canonical for a 100-carbon molecule —
parses to `"C10"` (the count override reads `10`, the final `0` is a digit
with a digit as previous char and is discarded). -/
theorem c2_counterexample :
    renderFormula [⟨"C", 100⟩] = "C100" ∧
    isCanonicalWith entryOkAny [⟨"C", 100⟩] = true ∧
    ¬(sort_empirical_formula "C100" = .Ok "C100") ∧
    sort_empirical_formula "C100" = .Ok "C10" := by
  refine ⟨by decide, by decide, by decide, by decide⟩

/-- Witness for C2 (amended): the four corpus formulas named by the claim
round-trip. -/
theorem c2_amended_witness :
    sort_empirical_formula "C5H11Br" = .Ok "C5H11Br" ∧
    sort_empirical_formula "CH2Cl2" = .Ok "CH2Cl2" ∧
    sort_empirical_formula "C6H12O7" = .Ok "C6H12O7" ∧
    sort_empirical_formula "BaCl2" = .Ok "BaCl2" :=
  ⟨c2_amended [⟨"C", 5⟩, ⟨"H", 11⟩, ⟨"Br", 1⟩] (by decide),
   c2_amended [⟨"C", 1⟩, ⟨"H", 2⟩, ⟨"Cl", 2⟩] (by decide),
   c2_amended [⟨"C", 6⟩, ⟨"H", 12⟩, ⟨"O", 7⟩] (by decide),
   c2_amended [⟨"Ba", 1⟩, ⟨"Cl", 2⟩] (by decide)⟩

end Chimitheque
